import Mathlib

/-!
Verification of the SOLVER breadth-first-search engine family against its
specification.  The C sources (`bfs.c`, `bfs2.c`, `bfs2p.c`, `bfsd.c`,
`bfsdu.c`, `npuzzle.c`) are shallowly embedded as executable Lean
functions: machine integers become `Nat` (the code rejects `N ≥ 2^60`, so
no 64-bit wrap-around is reachable on valid domains), byte buffers become
`List Nat` with entries below 256, fallible code returns
`Except`/`Option`, and the search loops become fuel-indexed recursions.

The file has two parts: all definitions (the embedding), then all
theorems.
-/

namespace Solver

/-! # Definitions -/

/-! ## State codec (bfs.c getptr/getval, identical in bfs2.c / bfs2p.c)

The C `getptr` writes a value into `slen` little-endian bytes with
`p[i]=v&255, v>>=8`; `getval` reads it back with `n += p[i] << (i*8)`.
Neither function contains any overflow or range check. -/

/-- Little-endian encoding of `v` into `s` bytes, exactly the loop of
`getptr`: byte `i` is `(v >> 8*i) & 255`, produced by repeated
`v&255` / `v>>=8`. -/
def getptr : Nat → Nat → List Nat
  | 0, _ => []
  | s + 1, v => (v % 256) :: getptr s (v / 256)

/-- Little-endian decoding of a byte buffer, exactly the loop of `getval`:
`n += p[i] << (i*8)` summed over the buffer. -/
def getval : List Nat → Nat
  | [] => 0
  | b :: bs => b + 256 * getval bs

/-- Number of base-256 digits of `v`: the byte width the npuzzle domain
computes with `for(slen=0,z=dsize;z;slen++,z>>=8)`. -/
def byteLen : Nat → Nat
  | 0 => 0
  | v + 1 => byteLen ((v + 1) / 256) + 1
decreasing_by exact Nat.div_lt_self (Nat.succ_pos v) (by norm_num)

/-- Lexicographic three-way comparison, most significant element first,
mirroring the descending byte loop of `comppos` in `bfsd.c`/`bfsdu.c`
(only called on equal-length buffers; mismatched lengths never occur in
the engine). -/
def lexComp : List Nat → List Nat → Ordering
  | [], _ => .eq
  | _ :: _, [] => .eq
  | x :: xs, y :: ys =>
    if x < y then .lt else if y < x then .gt else lexComp xs ys

/-- The comparator of `bfsd.c`/`bfsdu.c`: scan bytes from index `slen-1`
down to 0, i.e. lexicographic on the reversed (most-significant-first)
buffer. -/
def comppos (a b : List Nat) : Ordering := lexComp a.reverse b.reverse

/-! ## Sorting and batch de-duplication (bfsd.c / bfsdu.c)

`sortandcompress` is `qsort` (modelled by a comparison sort, specified up
to sortedness and permutation; by `comppos_getptr` the byte comparator is
integer comparison) followed by in-place removal of adjacent duplicates.
`removeduplicates2` is a three-pointer merge filtering a sorted batch
against two sorted lists. -/

/-- Comparison sort standing for the C `qsort` call. -/
def sortStates (l : List Nat) : List Nat := l.insertionSort (· ≤ ·)

/-- The compression loop of `sortandcompress`: keep the first element of
each run of equal (already adjacent, because sorted) states. -/
def adjUnique : List Nat → List Nat
  | [] => []
  | [x] => [x]
  | x :: y :: r => if x = y then adjUnique (x :: r) else x :: adjUnique (y :: r)
termination_by l => l.length

/-- Contents produced by a `sortandcompress` run: sort, then drop
adjacent duplicates. -/
def sortUnique (l : List Nat) : List Nat := adjUnique (sortStates l)

/-- Return value of `sortandcompress` in `bfsdu.c`: the counter `j`
starts at 1 and is incremented once per change of state in the sorted
run, so the function returns 1 — not 0 — when called with `curn = 0`
(the loop `for(i=j=1;...;i<curn;...)` never executes and `return j`
yields 1). -/
def scCountDu (l : List Nat) : Nat :=
  match sortStates l with
  | [] => 1
  | x :: xs => (adjUnique (x :: xs)).length

/-- Return value of `sortandcompress` in `bfsd.c`, which guards the same
loop with `if(curn<1) return 0;`. -/
def scCountD (l : List Nat) : Nat :=
  if l.length < 1 then 0 else scCountDu l

/-- Cursor advance of `removeduplicates2`: the while loop
`while(at<n && comppos(list, cur)<0) advance` skipping all states below
`c`. -/
def skipLt (c : Nat) : List Nat → List Nat
  | [] => []
  | x :: xs => if x < c then skipLt c xs else x :: xs

/-- Faithful recursion of `removeduplicates2`: the persistent cursors
into `prevprev` and `prev` become the updated `pp`/`p` arguments of the
recursive call; a batch state is dropped iff a cursor points at an equal
state. -/
def rd2 : List Nat → List Nat → List Nat → List Nat
  | _, _, [] => []
  | pp, p, c :: cs =>
    let pp2 := skipLt c pp
    let p2 := skipLt c p
    if pp2.head? = some c ∨ p2.head? = some c then rd2 pp2 p2 cs
    else c :: rd2 pp2 p2 cs

/-! ## Delayed-duplicate engines (bfsd.c and bfsdu.c main loops)

One iteration of `solver_bfs`: generate all successors of `prev`
(`visit_neighbours` + `add_child` appends), `sortandcompress` the batch,
`removeduplicates2` against `prevprev` and `prev`, then shift the ranges:
`bfsd.c` merges `prev` into the all-earlier-states list `prevprev`
(`sortandcompress` over the two adjacent sorted ranges), while `bfsdu.c`
discards `prevprev` and keeps only the last generation
(`memcpy(b, b+prevs, ...)`). -/

/-- One iteration of the directed delayed-duplicate engine `bfsd.c`,
returning the new `(prevprev, prev)` ranges. -/
def stepD (succ : Nat → List Nat) (pp p : List Nat) : List Nat × List Nat :=
  let cur := sortUnique (p.flatMap succ)
  let cur2 := rd2 pp p cur
  (sortUnique (pp ++ p), cur2)

/-- One iteration of the undirected variant `bfsdu.c`: `prevprev` is
replaced by the old `prev` instead of being merged. -/
def stepDU (succ : Nat → List Nat) (pp p : List Nat) : List Nat × List Nat :=
  let cur := sortUnique (p.flatMap succ)
  let cur2 := rd2 pp p cur
  (p, cur2)

/-- Iterated `bfsd.c` loop from the initial layout `prevprev = ∅`,
`prev = {start}`. -/
def iterD (succ : Nat → List Nat) (start : Nat) : Nat → List Nat × List Nat
  | 0 => ([], [start])
  | k + 1 => stepD succ (iterD succ start k).1 (iterD succ start k).2

/-- Iterated `bfsdu.c` loop from the initial layout `prevprev = ∅`,
`prev = {start}`. -/
def iterDU (succ : Nat → List Nat) (start : Nat) : Nat → List Nat × List Nat
  | 0 => ([], [start])
  | k + 1 => stepDU succ (iterDU succ start k).1 (iterDU succ start k).2

/-- The data-layout invariant of the delayed-duplicate engines: both
retained ranges are strictly ascending (sorted, duplicate-free) and share
no state. -/
def DelayedInv (pp p : List Nat) : Prop :=
  pp.Sorted (· < ·) ∧ p.Sorted (· < ·) ∧ ∀ x ∈ p, x ∉ pp

/-! ## Disk-swapping engine (bfs2.c, and the serial semantics of bfs2p.c)

State IDs are the decoded integers; the visited bit array becomes a
`Finset Nat`; a generation file becomes the list of IDs appended to it in
order.  `add_child` tests the visited set, marks, and appends; the main
loop drives `visit_neighbours` over the previous generation file in
order. -/

section DiskModel

variable (succ : Nat → List Nat) (start : Nat)

/-- The search-mode `add_child` of `bfs2.c`: skip if visited, else mark
visited and append to the output buffer (`b2`, eventually the next
generation file). -/
def addChild (v : Finset Nat) (out : List Nat) (t : Nat) : Finset Nat × List Nat :=
  if t ∈ v then (v, out) else (insert t v, out ++ [t])

/-- Process the successor list of one state (one `visit_neighbours`
call): fold `add_child` over the emitted children in order. -/
def procChildren : Finset Nat → List Nat → List Nat → Finset Nat × List Nat
  | v, out, [] => (v, out)
  | v, out, t :: ts =>
    let r := addChild v out t
    procChildren r.1 r.2 ts

/-- Process one generation file: `decode_state` + `visit_neighbours` for
each stored ID in order. -/
def procGen : Finset Nat → List Nat → List Nat → Finset Nat × List Nat
  | v, out, [] => (v, out)
  | v, out, s :: ss =>
    let r := procChildren v out (succ s)
    procGen r.1 r.2 ss

/-- Visited set and generation file after `g` iterations of
`solver_bfs`: generation 0 holds the initial state (written and marked
before the loop), generation `g+1` is produced by processing generation
`g`. -/
def genState : Nat → Finset Nat × List Nat
  | 0 => ({start}, [start])
  | g + 1 => procGen succ (genState g).1 [] (genState g).2

/-- Contents of the file `GEN-g`. -/
def gens (g : Nat) : List Nat := (genState succ start g).2

/-- Visited set after generation `g` has been fully produced. -/
def vis (g : Nat) : Finset Nat := (genState succ start g).1

/-- One-step successor set of a set of states. -/
def succsF (S : Finset Nat) : Finset Nat :=
  S.biUnion (fun s => (succ s).toFinset)

/-- States reachable from `start` by a walk of length at most `g` (the
specification-side yardstick the generations are measured against). -/
def ball : Nat → Finset Nat
  | 0 => {start}
  | g + 1 => ball g ∪ succsF succ (ball g)

/-- States at shortest-path distance exactly `g`. -/
def layer : Nat → Finset Nat
  | 0 => {start}
  | g + 1 => ball succ start (g + 1) \ ball succ start g

/-- Walks from the start state: `PathLen k s` says some sequence of `k`
domain moves leads from `start` to `s`. -/
inductive PathLen : Nat → Nat → Prop where
  | zero : PathLen 0 start
  | step {k u v} : PathLen k u → v ∈ succ u → PathLen (k + 1) v

/-- A state is reachable when some walk from the start reaches it. -/
def Reachable (s : Nat) : Prop := ∃ k, PathLen succ start k s

/-- Backward reconstruction of `showsolution` (bfs2.c lines 184-214,
bfs2p.c lines 198-228): scan `GEN-g` for the first state whose forward
neighbours contain the target; on a hit print it, make it the new target
and move to `GEN-(g-1)`; on a miss keep the target (the code falls
through to the next file).  Returns the list of printed states, from
depth `g` down to depth 0. -/
def backScan : Nat → Nat → List Nat
  | 0, w =>
    match (gens succ start 0).find? (fun pr => decide (w ∈ succ pr)) with
    | some pr => [pr]
    | none => []
  | g + 1, w =>
    match (gens succ start (g + 1)).find? (fun pr => decide (w ∈ succ pr)) with
    | some pr => pr :: backScan g pr
    | none => backScan (g + 1 - 1) w

end DiskModel

/-! ## In-memory engine (bfs.c)

The parent array `prev` (values UNVISITED / ROOT / parent id) becomes a
list of `PEnt`; the ring queue of capacity `n` is kept as the logical
queue contents plus the two monotone counters whose residues mod `n` are
the code's `qs`/`qe` pointers.  The loop test `qs < qe` and the
exhaustion test `qs == qe` are on the residues, exactly as in C. -/

/-- Entry of the parent map `bfs.prev`: `unv` is the UNVISITED sentinel
(0xFF..FE), `root` the ROOT sentinel (0xFF..FF), `par u` a predecessor
id. -/
inductive PEnt where
  | unv
  | root
  | par (u : Nat)
deriving DecidableEq, Repr

/-- State of the in-memory engine: parent array, logical queue contents,
and total dequeue/enqueue counters (`d % n` and `e % n` are the ring
pointers `qs` and `qe`). -/
structure MemSt where
  par : List PEnt
  q : List Nat
  d : Nat
  e : Nat
deriving DecidableEq, Repr

/-- Abnormal exits of the in-memory search: the `"bfs queue exhausted"`
error, or a win (the C code prints the solution and calls `exit(0)`
inside `add_child`; the model carries out the state at that point). -/
inductive Halt where
  | qex
  | won (c : Nat) (st : MemSt)
deriving DecidableEq, Repr

/-- The `add_child` of `bfs.c`: dedup on the parent map, record the
parent, test `won()` on the child (the domain's scratch state holds the
child when it invokes the callback), then enqueue and check for ring
wrap-around `qs == qe`. -/
def addChildM (n : Nat) (won : Nat → Bool) (cur : Nat) (st : MemSt) (c : Nat) :
    Except Halt MemSt :=
  if st.par.getD c .unv ≠ .unv then .ok st
  else if won c then .error (.won c { st with par := st.par.set c (.par cur) })
  else if (st.e + 1) % n = st.d % n then .error .qex
  else
    .ok
      { st with
        par := st.par.set c (.par cur)
        q := st.q ++ [c]
        e := st.e + 1 }

/-- One `visit_neighbours` call: `add_child` over the emitted children in
order, propagating an abnormal exit. -/
def visitList (n : Nat) (won : Nat → Bool) (cur : Nat) :
    List Nat → MemSt → Except Halt MemSt
  | [], st => .ok st
  | c :: cs, st =>
    match addChildM n won cur st c with
    | .ok st2 => visitList n won cur cs st2
    | .error h => .error h

/-- The main loop of `solver_bfs` in `bfs.c`, fuel-indexed: while
`qs < qe` (comparison of the ring residues, as in the source), dequeue,
decode, and drive `visit_neighbours`.  `none` means the fuel ran out,
`some (.ok st)` a normal loop exit. -/
def mrun (succ : Nat → List Nat) (n : Nat) (won : Nat → Bool) :
    Nat → MemSt → Option (Except Halt MemSt)
  | 0, _ => none
  | f + 1, st =>
    if st.d % n < st.e % n then
      match st.q with
      | [] => some (.ok st)
      | c :: rest =>
        match visitList n won c (succ c) { st with q := rest, d := st.d + 1 } with
        | .ok st2 => mrun succ n won f st2
        | .error h => some (.error h)
    else some (.ok st)

/-- State after `solver_init` + the preamble of `solver_bfs`: all
parents UNVISITED except the start state marked ROOT, the start state
enqueued. -/
def memInit (n start : Nat) : MemSt :=
  { par := (List.replicate n PEnt.unv).set start .root, q := [start], d := 0, e := 1 }

/-- Visited test of the in-memory engine: `prev[s] != UNVISITED`. -/
def isAdm (par : List PEnt) (s : Nat) : Bool := par.getD s .unv ≠ .unv

/-- The set of admitted (visited) state ids. -/
def admSet (par : List PEnt) : Finset Nat :=
  (Finset.range par.length).filter (fun s => par.getD s .unv ≠ .unv)

/-- Number of admitted entries; equals the total number of enqueues. -/
def admCount (par : List PEnt) : Nat := par.countP (fun x => x ≠ .unv)

/-- The parent chain walk of `showsolution` in `bfs.c`: follow `prev[]`
from a state back to the ROOT mark, then print forward; the returned
list is in printed (start-to-state) order.  Fuel-indexed; any fuel at
least the chain length gives the full chain. -/
def parChain (par : List PEnt) : Nat → Nat → List Nat
  | 0, s => [s]
  | f + 1, s =>
    match par.getD s .unv with
    | .par u => parChain par f u ++ [s]
    | _ => [s]

/-- A parent-map certificate: `Climbs succ start par j s` says following
the parent pointers from `s` reaches the ROOT mark at `start` in exactly
`j` steps, every link being a move the domain emits. -/
inductive Climbs (succ : Nat → List Nat) (start : Nat) (par : List PEnt) :
    Nat → Nat → Prop where
  | zero : par.getD start .unv = .root → Climbs succ start par 0 start
  | step {j u c} : Climbs succ start par j u → par.getD c .unv = .par u →
      c ∈ succ u → Climbs succ start par (j + 1) c

/-- Counter bookkeeping of the ring queue: the parent array has the
declared length, the enqueue counter equals the number of admitted
states, dequeues never overtake enqueues, the logical queue holds the
not-yet-dequeued enqueues, and queued ids are in range. -/
def MemInvB (n : Nat) (st : MemSt) : Prop :=
  st.par.length = n ∧ admCount st.par = st.e ∧ st.d ≤ st.e ∧
    st.q.length = st.e - st.d ∧ ∀ x ∈ st.q, x < n

/-- Layering invariant of the in-memory engine: the queue is a layer-`k`
segment followed by a layer-`(k+1)` segment, the admitted set is the
distance-`k` ball plus the second segment, any distance-`(k+1)` state
not yet admitted has an unprocessed predecessor in the first segment,
the queue has no duplicates, every admitted state carries a parent chain
of length equal to its distance, and no admitted state except possibly
the start is a win state (the win exit would have fired). -/
def MemInvL (succ : Nat → List Nat) (start : Nat) (won : Nat → Bool)
    (st : MemSt) : Prop :=
  ∃ k A B, st.q = A ++ B ∧
    (∀ a ∈ A, a ∈ layer succ start k) ∧
    (∀ b ∈ B, b ∈ layer succ start (k + 1)) ∧
    (∀ z, isAdm st.par z = true ↔ (z ∈ ball succ start k ∨ z ∈ B)) ∧
    (∀ z ∈ layer succ start (k + 1), z ∉ B → ∃ u ∈ A, z ∈ succ u) ∧
    st.q.Nodup ∧
    (∀ z, isAdm st.par z = true →
      ∃ j, z ∈ layer succ start j ∧ Climbs succ start st.par j z) ∧
    (∀ z, isAdm st.par z = true → z ≠ start → won z = false)

/-- What holds at the moment `showsolution` is entered: the win state is
a newly admitted child at some distance `j + 1`, its parent chain climbs
to the root in exactly `j + 1` connected steps, and no state at smaller
distance (except possibly the never-tested start) satisfies `won`. -/
def WonProp (succ : Nat → List Nat) (start : Nat) (won : Nat → Bool)
    (c : Nat) (st : MemSt) : Prop :=
  ∃ j, won c = true ∧ c ∈ layer succ start (j + 1) ∧
    Climbs succ start st.par (j + 1) c ∧
    ∀ z ∈ ball succ start j, z ≠ start → won z = false

/-! ## Parallel admission (bfs2p.c add_child)

In `bfs2p.c` the test-then-set on the visited bit of a state is enclosed
in the per-chunk mutex `mutex_check[state >> blockb]` (lines 237-243),
and the lazy allocation inside `setvisited` runs under the same lock, so
each admission attempt is atomic with respect to every other attempt on
the same state.  A parallel execution is therefore modelled by the
serialization of all `add_child` invocations in lock-acquisition order:
an arbitrary interleaving becomes an arbitrary list of attempted ids. -/

/-- Serialized admissions: process attempted ids in lock order; each
attempt atomically tests and sets the visited bit, and the list of ids
whose attempt admitted them is returned. -/
def runAdmits : Finset Nat → List Nat → Finset Nat × List Nat
  | v, [] => (v, [])
  | v, s :: ss =>
    if s ∈ v then runAdmits v ss
    else
      let r := runAdmits (insert s v) ss
      (r.1, s :: r.2)

/-! ## The npuzzle domain (npuzzle.c)

The scratch state `cur[thr].map[i][j]` (column `i`, row `j`) is embedded
as the row-major list `m` with cell `(i,j)` at index `j*x + i`, the order
in which `encode_state`/`decode_state`/`won` traverse it.  `encode_state`
ranks the permutation in the factorial number system (the live `O(n^2)`
branch); `decode_state` unranks it. -/

/-- Index of the `a`-th natural number (0-based) not in `taken`, scanning
upward from `m` — the loop `for(m=l=0;;m++) if(!(taken&(1LL<<m)))
{l++; if(l>a) break;}` of `decode_state`.  Fuel-indexed; fuel
`taken.length + a + 1` always suffices. -/
def nthUntaken (taken : List Nat) : Nat → Nat → Nat → Nat
  | 0, m, _ => m
  | f + 1, m, a =>
    if taken.contains m then nthUntaken taken f (m + 1) a
    else if a = 0 then m else nthUntaken taken f (m + 1) (a - 1)

/-- Number of values not in `taken` within the interval `[m, m + len)`;
the counting view of the scan in `decode_state`. -/
def cntUn (taken : List Nat) : Nat → Nat → Nat
  | _, 0 => 0
  | m, len + 1 => (if taken.contains m then 0 else 1) + cntUn taken (m + 1) len

/-- The ranking loop of `encode_state`: at each cell add
`(value minus smaller already-taken values) * (cells remaining)!`. -/
def encAux (taken : List Nat) : List Nat → Nat
  | [] => 0
  | m :: rest =>
    (List.range m).countP (fun t => !taken.contains t) * Nat.factorial rest.length +
      encAux (m :: taken) rest

/-- The unranking loop of `decode_state`: extract the factorial-base
digit, pick the corresponding untaken value, recurse on the remainder. -/
def decAux (taken : List Nat) : Nat → Nat → List Nat
  | _, 0 => []
  | v, k + 1 =>
    let a := v / Nat.factorial k
    let m := nthUntaken taken (taken.length + a + 1) 0 a
    m :: decAux (m :: taken) (v % Nat.factorial k) k

/-- Goal-configuration test at cell `k` (row-major): `map[i][j] ==
(k+1) % (x*y)`, i.e. tiles `1..xy-1` in order with the blank last. -/
def npIsGoal (x y : Nat) (m : List Nat) : Bool :=
  (List.range (x * y)).all (fun k => m.getD k 0 == (k + 1) % (x * y))

/-- The goal-mode flag computed by `domain_init` (npuzzle.c line 144):
`goal = 0` iff the parsed input already equals the goal configuration
(`if(cur[0].map[i][j] != (i+j*info.x+1)%info.xy) info.goal=1`). -/
def npGoalFlag (x y : Nat) (m : List Nat) : Bool := !npIsGoal x y m

/-- The `won()` of npuzzle.c: always 0 in enumerate-entire-tree mode
(`if(!info.goal) return 0;`), otherwise the goal-configuration test. -/
def npWon (goal : Bool) (x y : Nat) (m : List Nat) : Bool :=
  goal && npIsGoal x y m

/-- The moves of `visit_neighbours` in npuzzle.c: locate the blank, try
the four directions `dx={1,0,-1,0}`, `dy={0,1,0,-1}`, and for each
in-bounds neighbour swap it with the blank. -/
def npMoves (x y : Nat) (m : List Nat) : List (List Nat) :=
  let kb := m.indexOf 0
  let cx : Int := (kb % x : Nat)
  let cy : Int := (kb / x : Nat)
  (List.range 4).filterMap (fun dir =>
    let dx := [(1 : Int), 0, -1, 0].getD dir 0
    let dy := [(0 : Int), 1, 0, -1].getD dir 0
    let x2 := cx + dx
    let y2 := cy + dy
    if x2 < 0 ∨ y2 < 0 ∨ x2 ≥ (x : Int) ∨ y2 ≥ (y : Int) then none
    else
      let k2 := (y2 * x + x2).toNat
      some ((m.set kb (m.getD k2 0)).set k2 0))

/-- The npuzzle domain's successor function at the encoded-id level:
decode, enumerate blank moves, encode each resulting state. -/
def succNp (x y : Nat) (v : Nat) : List Nat :=
  (npMoves x y (decAux [] v (x * y))).map (fun m2 => encAux [] m2)

/-- The npuzzle `won()` at the encoded-id level, with the goal flag that
`domain_init` computed from the initial map. -/
def npWonId (goal : Bool) (x y : Nat) (v : Nat) : Bool :=
  npWon goal x y (decAux [] v (x * y))

/-- The 2x2 puzzle whose input already is the goal configuration:
tiles 1 2 / 3 blank. -/
def m22 : List Nat := [1, 2, 3, 0]

/-! ## Concrete test domain for witnesses

The linear chain `0 → 1 → 2 → 3` on four states (seed scenario 1 of the
specification). -/

/-- Successors of the chain domain. -/
def succChain : Nat → List Nat := fun s =>
  if s = 0 then [1] else if s = 1 then [2] else if s = 2 then [3] else []

/-- Goal test of the chain domain: state 3 wins. -/
def wonChain : Nat → Bool := fun s => s == 3

/-! # Theorems -/

/-! ## Codec -/

theorem getptr_length (s v : Nat) : (getptr s v).length = s := by
  induction s generalizing v with
  | zero => rfl
  | succ s ih => simp [getptr, ih]

/-- Silent truncation: `getval (getptr s v)` is always `v mod 256^s`; the
codec has no error path. -/
theorem getval_getptr (s v : Nat) : getval (getptr s v) = v % 256 ^ s := by
  induction s generalizing v with
  | zero => simp [getptr, getval, Nat.mod_one]
  | succ s ih =>
    simp only [getptr, getval, ih]
    rw [pow_succ']
    have h1 : v % (256 * 256 ^ s) % 256 = v % 256 :=
      Nat.mod_mod_of_dvd v ⟨256 ^ s, rfl⟩
    have h2 : v % (256 * 256 ^ s) / 256 = v / 256 % 256 ^ s :=
      Nat.mod_mul_right_div_self v 256 (256 ^ s)
    omega

theorem getval_getptr_of_lt {s v : Nat} (h : v < 256 ^ s) :
    getval (getptr s v) = v := by
  rw [getval_getptr, Nat.mod_eq_of_lt h]

theorem lt_pow_byteLen (v : Nat) : v < 256 ^ byteLen v := by
  induction v using Nat.strong_induction_on with
  | _ v ih =>
    match v with
    | 0 => simp [byteLen]
    | w + 1 =>
      rw [byteLen]
      have hlt : (w + 1) / 256 < w + 1 := Nat.div_lt_self (Nat.succ_pos w) (by norm_num)
      have h := ih _ hlt
      calc w + 1 < 256 * ((w + 1) / 256) + 256 := by omega
        _ ≤ 256 * 256 ^ byteLen ((w + 1) / 256) := by
            have : (w + 1) / 256 + 1 ≤ 256 ^ byteLen ((w + 1) / 256) := h
            nlinarith
        _ = 256 ^ (byteLen ((w + 1) / 256) + 1) := by ring

theorem lexComp_append_last {A B : List Nat} (h : A.length = B.length)
    (x y : Nat) :
    lexComp (A ++ [x]) (B ++ [y]) = (lexComp A B).then (compare x y) := by
  induction A generalizing B with
  | nil =>
    match B, h with
    | [], _ =>
      simp only [List.nil_append, lexComp, Ordering.then]
      rcases Nat.lt_trichotomy x y with h | h | h
      · simp [lexComp, h, Nat.compare_eq_lt.mpr h]
      · subst h; simp [lexComp, Nat.compare_eq_eq.mpr rfl, Nat.lt_irrefl]
      · simp [lexComp, h, Nat.lt_asymm h, Nat.compare_eq_gt.mpr h]
  | cons a A ih =>
    match B, h with
    | b :: B, h =>
      simp only [List.length_cons, Nat.succ.injEq] at h
      simp only [List.cons_append, lexComp]
      by_cases h1 : a < b
      · simp [h1, Ordering.then]
      · by_cases h2 : b < a
        · simp [h1, h2, Ordering.then]
        · simp [h1, h2, ih h]

theorem lt_of_div_lt_div {v w : Nat} (h : v / 256 < w / 256) : v < w := by
  omega

/-- Byte order is integer order: on `s`-byte little-endian encodings of
values below `256^s`, the most-significant-byte-first scan of `comppos`
agrees with comparison of the encoded integers. -/
theorem comppos_getptr (s : Nat) :
    ∀ v w : Nat, v < 256 ^ s → w < 256 ^ s →
      comppos (getptr s v) (getptr s w) = compare v w := by
  induction s with
  | zero =>
    intro v w hv hw
    interval_cases v
    interval_cases w
    rfl
  | succ s ih =>
    intro v w hv hw
    have hv2 : v / 256 < 256 ^ s := by
      rw [Nat.div_lt_iff_lt_mul (by norm_num)]
      calc v < 256 ^ (s + 1) := hv
        _ = 256 ^ s * 256 := by ring
    have hw2 : w / 256 < 256 ^ s := by
      rw [Nat.div_lt_iff_lt_mul (by norm_num)]
      calc w < 256 ^ (s + 1) := hw
        _ = 256 ^ s * 256 := by ring
    have key := ih (v / 256) (w / 256) hv2 hw2
    unfold comppos at key ⊢
    simp only [getptr, List.reverse_cons]
    rw [lexComp_append_last (by simp [getptr_length]) (v % 256) (w % 256), key]
    rcases Nat.lt_trichotomy (v / 256) (w / 256) with h | h | h
    · rw [Nat.compare_eq_lt.mpr h, Nat.compare_eq_lt.mpr (lt_of_div_lt_div h)]
      rfl
    · rw [Nat.compare_eq_eq.mpr h]
      have : compare (v % 256) (w % 256) = compare v w := by
        rcases Nat.lt_trichotomy v w with h2 | h2 | h2
        · rw [Nat.compare_eq_lt.mpr h2, Nat.compare_eq_lt.mpr (by omega)]
        · subst h2; rw [Nat.compare_eq_eq.mpr rfl, Nat.compare_eq_eq.mpr rfl]
        · rw [Nat.compare_eq_gt.mpr h2, Nat.compare_eq_gt.mpr (by omega)]
      rw [this]
      rfl
    · rw [Nat.compare_eq_gt.mpr h, Nat.compare_eq_gt.mpr (lt_of_div_lt_div h)]
      rfl

/-! ## Sorting and removeduplicates2 -/

theorem sortStates_sorted (l : List Nat) :
    (sortStates l).Sorted (· ≤ ·) := List.sorted_insertionSort _ l

theorem mem_sortStates {x : Nat} {l : List Nat} : x ∈ sortStates l ↔ x ∈ l :=
  (List.perm_insertionSort _ l).mem_iff

theorem mem_adjUnique {x : Nat} : ∀ {l : List Nat}, x ∈ adjUnique l ↔ x ∈ l
  | [] => by rw [adjUnique]
  | [y] => by rw [adjUnique]
  | y :: z :: r => by
    rw [adjUnique]
    by_cases h : y = z
    · subst h
      rw [if_pos rfl, @mem_adjUnique x (y :: r)]
      simp
    · rw [if_neg h]
      simp only [List.mem_cons]
      rw [@mem_adjUnique x (z :: r)]
      simp
termination_by l => l.length

theorem adjUnique_sorted_lt :
    ∀ {l : List Nat}, l.Sorted (· ≤ ·) → (adjUnique l).Sorted (· < ·)
  | [], _ => by rw [adjUnique]; exact List.sorted_nil
  | [x], _ => by rw [adjUnique]; exact List.sorted_singleton x
  | x :: y :: r, h => by
    rw [adjUnique]
    have hx : ∀ b ∈ y :: r, x ≤ b := (List.sorted_cons.mp h).1
    have hyr : (y :: r).Sorted (· ≤ ·) := (List.sorted_cons.mp h).2
    by_cases hxy : x = y
    · subst hxy
      rw [if_pos rfl]
      exact @adjUnique_sorted_lt (x :: r)
        (List.sorted_cons.mpr ⟨fun b hb => (List.sorted_cons.mp hyr).1 b hb, (List.sorted_cons.mp hyr).2⟩)
    · rw [if_neg hxy]
      refine List.sorted_cons.mpr ⟨?_, adjUnique_sorted_lt hyr⟩
      intro b hb
      have hb2 : b ∈ y :: r := mem_adjUnique.mp hb
      rcases List.mem_cons.mp hb2 with rfl | hb3
      · exact lt_of_le_of_ne (hx b hb2) hxy
      · have hxy2 : x < y := lt_of_le_of_ne (hx y (List.mem_cons_self y r)) hxy
        exact lt_of_lt_of_le hxy2 ((List.sorted_cons.mp hyr).1 b hb3)
termination_by l => l.length

theorem sortUnique_sorted (l : List Nat) : (sortUnique l).Sorted (· < ·) :=
  adjUnique_sorted_lt (sortStates_sorted l)

theorem mem_sortUnique {x : Nat} {l : List Nat} :
    x ∈ sortUnique l ↔ x ∈ l := by
  rw [sortUnique, mem_adjUnique, mem_sortStates]

theorem skipLt_sublist (c : Nat) : ∀ l : List Nat, List.Sublist (skipLt c l) l
  | [] => List.Sublist.refl []
  | x :: xs => by
    rw [skipLt]
    by_cases h : x < c
    · rw [if_pos h]
      exact (skipLt_sublist c xs).cons x
    · rw [if_neg h]

theorem mem_skipLt_of_le {c x : Nat} (hcx : c ≤ x) :
    ∀ {l : List Nat}, x ∈ skipLt c l ↔ x ∈ l
  | [] => Iff.rfl
  | y :: ys => by
    rw [skipLt]
    by_cases h : y < c
    · rw [if_pos h, @mem_skipLt_of_le c x hcx ys]
      have : x ≠ y := by omega
      simp [this]
    · rw [if_neg h]

theorem skipLt_sorted {c : Nat} {l : List Nat} (hs : l.Sorted (· ≤ ·)) :
    (skipLt c l).Sorted (· ≤ ·) := hs.sublist (skipLt_sublist c l)

/-- Equality test at the advanced cursor decides membership in a sorted
list: after skipping all states `< c` the head is `c` iff `c` occurs. -/
theorem skipLt_head_eq_iff_mem :
    ∀ {l : List Nat}, l.Sorted (· ≤ ·) → ∀ {c : Nat},
      ((skipLt c l).head? = some c ↔ c ∈ l)
  | [] => by intro _ c; simp [skipLt]
  | x :: xs => by
    intro hs c
    have hxle : ∀ b ∈ xs, x ≤ b := (List.sorted_cons.mp hs).1
    have hxs : xs.Sorted (· ≤ ·) := (List.sorted_cons.mp hs).2
    rw [skipLt]
    by_cases h : x < c
    · rw [if_pos h, skipLt_head_eq_iff_mem hxs]
      have : ¬ c = x := by omega
      simp [List.mem_cons, this]
    · rw [if_neg h]
      simp only [List.head?_cons, Option.some.injEq, List.mem_cons]
      constructor
      · intro he
        exact Or.inl he.symm
      · rintro (rfl | hmem)
        · rfl
        · have := hxle c hmem
          omega

theorem rd2_sublist : ∀ (pp p c : List Nat), List.Sublist (rd2 pp p c) c
  | _, _, [] => List.Sublist.refl []
  | pp, p, c :: cs => by
    rw [rd2]
    by_cases h : (skipLt c pp).head? = some c ∨ (skipLt c p).head? = some c
    · simp only [if_pos h]
      exact (rd2_sublist _ _ cs).cons c
    · simp only [if_neg h]
      exact (rd2_sublist _ _ cs).cons₂ c

/-- Correctness of `removeduplicates2` over sorted inputs: every state it
keeps is absent from both previous lists. -/
theorem rd2_not_mem :
    ∀ (c pp p : List Nat), pp.Sorted (· ≤ ·) → p.Sorted (· ≤ ·) →
      c.Sorted (· < ·) → ∀ x ∈ rd2 pp p c, x ∉ pp ∧ x ∉ p
  | [], _, _ => by intro _ _ _ x hx; rw [rd2] at hx; cases hx
  | c :: cs, pp, p => by
    intro hpp hp hc x hx
    rw [rd2] at hx
    have hpp2 : (skipLt c pp).Sorted (· ≤ ·) := skipLt_sorted hpp
    have hp2 : (skipLt c p).Sorted (· ≤ ·) := skipLt_sorted hp
    have hcs : cs.Sorted (· < ·) := (List.sorted_cons.mp hc).2
    have hlt : ∀ y ∈ cs, c < y := (List.sorted_cons.mp hc).1
    by_cases h : (skipLt c pp).head? = some c ∨ (skipLt c p).head? = some c
    · rw [if_pos h] at hx
      have hxmem : x ∈ cs := (rd2_sublist _ _ cs).mem hx
      have ih := rd2_not_mem cs _ _ hpp2 hp2 hcs x hx
      exact ⟨fun hm => ih.1 ((mem_skipLt_of_le (hlt x hxmem).le).mpr hm),
             fun hm => ih.2 ((mem_skipLt_of_le (hlt x hxmem).le).mpr hm)⟩
    · rw [if_neg h] at hx
      push_neg at h
      rcases List.mem_cons.mp hx with rfl | hxcs
      · exact ⟨fun hm => h.1 ((skipLt_head_eq_iff_mem hpp).mpr hm),
              fun hm => h.2 ((skipLt_head_eq_iff_mem hp).mpr hm)⟩
      · have hxmem : x ∈ cs := (rd2_sublist _ _ cs).mem hxcs
        have ih := rd2_not_mem cs _ _ hpp2 hp2 hcs x hxcs
        exact ⟨fun hm => ih.1 ((mem_skipLt_of_le (hlt x hxmem).le).mpr hm),
               fun hm => ih.2 ((mem_skipLt_of_le (hlt x hxmem).le).mpr hm)⟩

/-- Completeness of `removeduplicates2`: a batch state absent from both
previous lists is kept. -/
theorem rd2_mem_of :
    ∀ (c pp p : List Nat), pp.Sorted (· ≤ ·) → p.Sorted (· ≤ ·) →
      c.Sorted (· < ·) → ∀ x ∈ c, x ∉ pp → x ∉ p → x ∈ rd2 pp p c
  | [], _, _ => by intro _ _ _ x hx; cases hx
  | c :: cs, pp, p => by
    intro hpp hp hc x hx hxpp hxp
    rw [rd2]
    have hpp2 : (skipLt c pp).Sorted (· ≤ ·) := skipLt_sorted hpp
    have hp2 : (skipLt c p).Sorted (· ≤ ·) := skipLt_sorted hp
    have hcs : cs.Sorted (· < ·) := (List.sorted_cons.mp hc).2
    have hlt : ∀ y ∈ cs, c < y := (List.sorted_cons.mp hc).1
    rcases List.mem_cons.mp hx with rfl | hxcs
    · have hcond : ¬ ((skipLt x pp).head? = some x ∨ (skipLt x p).head? = some x) := by
        rintro (h | h)
        · exact hxpp ((skipLt_head_eq_iff_mem hpp).mp h)
        · exact hxp ((skipLt_head_eq_iff_mem hp).mp h)
      rw [if_neg hcond]
      exact List.mem_cons_self _ _
    · have hxpp2 : x ∉ skipLt c pp := fun hm => hxpp ((skipLt_sublist c pp).mem hm)
      have hxp2 : x ∉ skipLt c p := fun hm => hxp ((skipLt_sublist c p).mem hm)
      have hrec := rd2_mem_of cs _ _ hpp2 hp2 hcs x hxcs hxpp2 hxp2
      by_cases h : (skipLt c pp).head? = some c ∨ (skipLt c p).head? = some c
      · rw [if_pos h]
        exact hrec
      · rw [if_neg h]
        exact List.mem_cons_of_mem c hrec

/-- Membership characterization of `removeduplicates2` on sorted
inputs. -/
theorem rd2_mem_iff {c pp p : List Nat} (hpp : pp.Sorted (· ≤ ·))
    (hp : p.Sorted (· ≤ ·)) (hc : c.Sorted (· < ·)) {x : Nat} :
    x ∈ rd2 pp p c ↔ x ∈ c ∧ x ∉ pp ∧ x ∉ p := by
  constructor
  · intro hx
    obtain ⟨h1, h2⟩ := rd2_not_mem c pp p hpp hp hc x hx
    exact ⟨(rd2_sublist pp p c).mem hx, h1, h2⟩
  · rintro ⟨h1, h2, h3⟩
    exact rd2_mem_of c pp p hpp hp hc x h1 h2 h3

/-! ## Delayed-duplicate engine invariants -/

theorem sorted_lt_le {l : List Nat} (h : l.Sorted (· < ·)) :
    l.Sorted (· ≤ ·) := h.imp le_of_lt

/-- One `bfsd.c` iteration preserves the layout invariant: the merged
`prevprev` is sorted by `sortandcompress`, the deduplicated batch is a
sublist of a sorted run, and `removeduplicates2` guarantees the new
`prev` avoids everything in the merged `prevprev`. -/
theorem stepD_inv {succ : Nat → List Nat} {pp p : List Nat}
    (h : DelayedInv pp p) :
    DelayedInv (stepD succ pp p).1 (stepD succ pp p).2 := by
  obtain ⟨hpp, hp, _⟩ := h
  refine ⟨sortUnique_sorted _, ?_, ?_⟩
  · exact (sortUnique_sorted (p.flatMap succ)).sublist (rd2_sublist _ _ _)
  · intro x hx hmem
    have hnm := rd2_not_mem _ pp p (sorted_lt_le hpp) (sorted_lt_le hp)
      (sortUnique_sorted _) x hx
    rcases List.mem_append.mp (mem_sortUnique.mp hmem) with h2 | h2
    · exact hnm.1 h2
    · exact hnm.2 h2

/-- One `bfsdu.c` iteration preserves the layout invariant: the old
`prev` (already sorted) becomes `prevprev`, and `removeduplicates2`
guarantees the new `prev` avoids it. -/
theorem stepDU_inv {succ : Nat → List Nat} {pp p : List Nat}
    (h : DelayedInv pp p) :
    DelayedInv (stepDU succ pp p).1 (stepDU succ pp p).2 := by
  obtain ⟨hpp, hp, _⟩ := h
  refine ⟨hp, ?_, ?_⟩
  · exact (sortUnique_sorted (p.flatMap succ)).sublist (rd2_sublist _ _ _)
  · intro x hx
    exact (rd2_not_mem _ pp p (sorted_lt_le hpp) (sorted_lt_le hp)
      (sortUnique_sorted _) x hx).2

theorem iterD_inv (succ : Nat → List Nat) (start : Nat) :
    ∀ k, DelayedInv (iterD succ start k).1 (iterD succ start k).2
  | 0 => ⟨List.sorted_nil, List.sorted_singleton start, fun x _ h2 => (List.not_mem_nil x) h2⟩
  | k + 1 => stepD_inv (iterD_inv succ start k)

theorem iterDU_inv (succ : Nat → List Nat) (start : Nat) :
    ∀ k, DelayedInv (iterDU succ start k).1 (iterDU succ start k).2
  | 0 => ⟨List.sorted_nil, List.sorted_singleton start, fun x _ h2 => (List.not_mem_nil x) h2⟩
  | k + 1 => stepDU_inv (iterDU_inv succ start k)

/-! ## Disk-engine layering -/

section DiskTheorems

variable {succ : Nat → List Nat} {start : Nat}

theorem procChildren_spec (v : Finset Nat) (out ts : List Nat) :
    (∀ z, z ∈ (procChildren v out ts).1 ↔ z ∈ v ∨ z ∈ ts) ∧
      ∃ F, (procChildren v out ts).2 = out ++ F ∧
        (∀ z, z ∈ F ↔ z ∈ ts ∧ z ∉ v) ∧ F.Nodup := by
  induction ts generalizing v out with
  | nil =>
    exact ⟨fun z => by simp [procChildren], [], by simp [procChildren],
      fun z => by simp, List.nodup_nil⟩
  | cons t ts ih =>
    rw [procChildren]
    by_cases ht : t ∈ v
    · rw [addChild, if_pos ht]
      obtain ⟨h1, F, h2, h3, h4⟩ := ih v out
      refine ⟨fun z => ?_, F, h2, fun z => ?_, h4⟩
      · rw [h1 z]
        constructor
        · rintro (hz | hz)
          · exact Or.inl hz
          · exact Or.inr (List.mem_cons_of_mem t hz)
        · rintro (hz | hz)
          · exact Or.inl hz
          · rcases List.mem_cons.mp hz with rfl | hz2
            · exact Or.inl ht
            · exact Or.inr hz2
      · rw [h3 z]
        constructor
        · rintro ⟨hz, hzv⟩
          exact ⟨List.mem_cons_of_mem t hz, hzv⟩
        · rintro ⟨hz, hzv⟩
          rcases List.mem_cons.mp hz with rfl | hz2
          · exact absurd ht hzv
          · exact ⟨hz2, hzv⟩
    · rw [addChild, if_neg ht]
      obtain ⟨h1, F, h2, h3, h4⟩ := ih (insert t v) (out ++ [t])
      refine ⟨fun z => ?_, t :: F, by simpa using h2, fun z => ?_, ?_⟩
      · rw [h1 z]
        simp only [Finset.mem_insert, List.mem_cons]
        tauto
      · rw [List.mem_cons, h3 z]
        simp only [Finset.mem_insert, List.mem_cons]
        by_cases hz : z = t
        · subst hz; tauto
        · tauto
      · refine List.nodup_cons.mpr ⟨fun hm => ?_, h4⟩
        exact ((h3 t).mp hm).2 (Finset.mem_insert_self t v)

theorem procGen_spec (v : Finset Nat) (out ss : List Nat) :
    (∀ z, z ∈ (procGen succ v out ss).1 ↔ z ∈ v ∨ ∃ s ∈ ss, z ∈ succ s) ∧
      ∃ F, (procGen succ v out ss).2 = out ++ F ∧
        (∀ z, z ∈ F ↔ (∃ s ∈ ss, z ∈ succ s) ∧ z ∉ v) ∧ F.Nodup := by
  induction ss generalizing v out with
  | nil =>
    exact ⟨fun z => by simp [procGen], [], by simp [procGen],
      fun z => by simp, List.nodup_nil⟩
  | cons s ss ih =>
    rw [procGen]
    obtain ⟨h1, F1, h2, h3, h4⟩ := procChildren_spec v out (succ s)
    obtain ⟨g1, F2, g2, g3, g4⟩ :=
      ih (procChildren v out (succ s)).1 (procChildren v out (succ s)).2
    refine ⟨fun z => ?_, F1 ++ F2, ?_, fun z => ?_, ?_⟩
    · rw [g1 z]
      simp only [h1 z, List.mem_cons]
      constructor
      · rintro ((hz | hz) | ⟨a, ha, hz⟩)
        · exact Or.inl hz
        · exact Or.inr ⟨s, Or.inl rfl, hz⟩
        · exact Or.inr ⟨a, Or.inr ha, hz⟩
      · rintro (hz | ⟨a, rfl | ha, hz⟩)
        · exact Or.inl (Or.inl hz)
        · exact Or.inl (Or.inr hz)
        · exact Or.inr ⟨a, ha, hz⟩
    · rw [g2, h2, List.append_assoc]
    · rw [List.mem_append, h3 z, g3 z]
      simp only [h1 z, List.mem_cons]
      constructor
      · rintro (⟨hz, hzv⟩ | ⟨⟨a, ha, hz⟩, hzv⟩)
        · exact ⟨⟨s, Or.inl rfl, hz⟩, hzv⟩
        · exact ⟨⟨a, Or.inr ha, hz⟩, fun hv => hzv (Or.inl hv)⟩
      · rintro ⟨⟨a, rfl | ha, hz⟩, hzv⟩
        · exact Or.inl ⟨hz, hzv⟩
        · by_cases hzs : z ∈ succ s
          · exact Or.inl ⟨hzs, hzv⟩
          · exact Or.inr ⟨⟨a, ha, hz⟩, fun hv => (Or.elim hv hzv hzs)⟩
    · rw [List.nodup_append]
      refine ⟨h4, g4, fun z hz1 hz2 => ?_⟩
      exact ((g3 z).mp hz2).2 ((h1 z).mpr (Or.inr ((h3 z).mp hz1).1))

theorem pathLen_mem_ball : ∀ {k s}, PathLen succ start k s → s ∈ ball succ start k := by
  intro k s h
  induction h with
  | zero => exact Finset.mem_singleton_self start
  | step hp hsu ih =>
    rw [ball]
    refine Finset.mem_union_right _ (Finset.mem_biUnion.mpr ⟨_, ih, ?_⟩)
    exact List.mem_toFinset.mpr hsu

theorem ball_subset_next (g : Nat) :
    ball succ start g ⊆ ball succ start (g + 1) := by
  intro z hz
  show z ∈ ball succ start g ∪ succsF succ (ball succ start g)
  exact Finset.mem_union_left _ hz

theorem ball_mono {g h : Nat} (hgh : g ≤ h) :
    ball succ start g ⊆ ball succ start h := by
  induction h with
  | zero =>
    cases Nat.le_zero.mp hgh
    exact subset_rfl
  | succ h ih =>
    rcases Nat.lt_or_ge g (h + 1) with hlt | hge
    · exact (ih (Nat.lt_succ_iff.mp hlt)).trans (ball_subset_next h)
    · cases Nat.le_antisymm hgh hge
      exact subset_rfl

theorem mem_ball_iff {g s : Nat} :
    s ∈ ball succ start g ↔ ∃ k ≤ g, PathLen succ start k s := by
  induction g generalizing s with
  | zero =>
    rw [ball]
    simp only [Finset.mem_singleton]
    constructor
    · rintro rfl
      exact ⟨0, le_refl 0, PathLen.zero⟩
    · rintro ⟨k, hk, hp⟩
      cases Nat.le_zero.mp hk
      cases hp
      rfl
  | succ g ih =>
    rw [ball]
    simp only [Finset.mem_union, Finset.mem_biUnion, List.mem_toFinset, succsF]
    constructor
    · rintro (hs | ⟨u, hu, hsu⟩)
      · obtain ⟨k, hk, hp⟩ := ih.mp hs
        exact ⟨k, hk.trans (Nat.le_succ g), hp⟩
      · obtain ⟨k, hk, hp⟩ := ih.mp hu
        exact ⟨k + 1, Nat.succ_le_succ hk, hp.step hsu⟩
    · rintro ⟨k, hk, hp⟩
      cases hp with
      | zero => exact Or.inl (ih.mpr ⟨0, Nat.zero_le g, PathLen.zero⟩)
      | step hp2 hsu =>
        rename_i k2 u
        exact Or.inr ⟨u, ih.mpr ⟨k2, Nat.lt_succ_iff.mp hk, hp2⟩, hsu⟩

theorem layer_subset_ball (g : Nat) :
    layer succ start g ⊆ ball succ start g := by
  cases g with
  | zero => rw [layer, ball]
  | succ g => rw [layer]; exact Finset.sdiff_subset

theorem mem_layer_iff {g s : Nat} :
    s ∈ layer succ start g ↔
      PathLen succ start g s ∧ ∀ k, PathLen succ start k s → g ≤ k := by
  cases g with
  | zero =>
    rw [layer]
    simp only [Finset.mem_singleton]
    constructor
    · rintro rfl
      exact ⟨PathLen.zero, fun k _ => Nat.zero_le k⟩
    · rintro ⟨hp, _⟩
      cases hp
      rfl
  | succ g =>
    rw [layer]
    simp only [Finset.mem_sdiff]
    constructor
    · rintro ⟨hin, hout⟩
      obtain ⟨k, hk, hp⟩ := mem_ball_iff.mp hin
      have hknot : ∀ k2, k2 ≤ g → ¬ PathLen succ start k2 s := by
        intro k2 hk2 hp2
        exact hout (mem_ball_iff.mpr ⟨k2, hk2, hp2⟩)
      have hkeq : k = g + 1 := by
        rcases Nat.lt_or_ge k (g + 1) with h | h
        · exact absurd hp (hknot k (Nat.lt_succ_iff.mp h))
        · omega
      subst hkeq
      refine ⟨hp, fun k2 hp2 => ?_⟩
      by_contra hlt
      exact hknot k2 (by omega) hp2
    · rintro ⟨hp, hmin⟩
      refine ⟨pathLen_mem_ball hp, fun hin => ?_⟩
      obtain ⟨k, hk, hp2⟩ := mem_ball_iff.mp hin
      have := hmin k hp2
      omega

theorem layer_eq_of_mem {g h s : Nat} (hg : s ∈ layer succ start g)
    (hh : s ∈ layer succ start h) : g = h := by
  obtain ⟨hp1, hm1⟩ := mem_layer_iff.mp hg
  obtain ⟨hp2, hm2⟩ := mem_layer_iff.mp hh
  exact Nat.le_antisymm (hm1 h hp2) (hm2 g hp1)

theorem exists_layer_of_pathLen :
    ∀ {k s}, PathLen succ start k s → ∃ j ≤ k, s ∈ layer succ start j := by
  intro k
  induction k using Nat.strong_induction_on with
  | _ k ih =>
    intro s hp
    by_cases hmin : ∀ k2, PathLen succ start k2 s → k ≤ k2
    · exact ⟨k, le_refl k, mem_layer_iff.mpr ⟨hp, hmin⟩⟩
    · push_neg at hmin
      obtain ⟨k2, hp2, hk2⟩ := hmin
      obtain ⟨j, hj, hl⟩ := ih k2 hk2 hp2
      exact ⟨j, by omega, hl⟩

/-- The frontier step happens on the newest layer only: successors of the
whole ball add nothing beyond successors of the outermost layer. -/
theorem ball_succ_eq_layer_succ (g : Nat) :
    ball succ start (g + 1) =
      ball succ start g ∪ succsF succ (layer succ start g) := by
  cases g with
  | zero => rfl
  | succ g =>
    apply Finset.Subset.antisymm
    · rw [ball]
      intro z hz
      rcases Finset.mem_union.mp hz with hz | hz
      · exact Finset.mem_union_left _ hz
      · obtain ⟨u, hu, hzu⟩ := Finset.mem_biUnion.mp hz
        by_cases hub : u ∈ ball succ start g
        · refine Finset.mem_union_left _ ?_
          rw [ball]
          exact Finset.mem_union_right _
            (Finset.mem_biUnion.mpr ⟨u, hub, hzu⟩)
        · refine Finset.mem_union_right _ (Finset.mem_biUnion.mpr ⟨u, ?_, hzu⟩)
          rw [layer]
          exact Finset.mem_sdiff.mpr ⟨hu, hub⟩
    · apply Finset.union_subset (ball_subset_next (g + 1))
      intro z hz
      obtain ⟨u, hu, hzu⟩ := Finset.mem_biUnion.mp hz
      show z ∈ ball succ start (g + 1) ∪ succsF succ (ball succ start (g + 1))
      exact Finset.mem_union_right _
        (Finset.mem_biUnion.mpr ⟨u, layer_subset_ball (g + 1) hu, hzu⟩)

/-- Central layering invariant of `solver_bfs` in `bfs2.c`: after `g`
iterations the visited set holds exactly the states within distance `g`,
and the file `GEN-g` holds exactly the states at distance `g`, each
once. -/
theorem genState_spec :
    ∀ g, vis succ start g = ball succ start g ∧
      (∀ z, z ∈ gens succ start g ↔ z ∈ layer succ start g) ∧
      (gens succ start g).Nodup
  | 0 => by
    refine ⟨rfl, fun z => ?_, List.nodup_singleton start⟩
    rw [layer]
    simp [gens, genState]
  | g + 1 => by
    obtain ⟨ihv, ihg, ihn⟩ := genState_spec g
    have hmodel : genState succ start (g + 1) =
        procGen succ (vis succ start g) [] (gens succ start g) := rfl
    obtain ⟨h1, F, h2, h3, h4⟩ :=
      @procGen_spec succ (vis succ start g) [] (gens succ start g)
    have hvis : vis succ start (g + 1) = ball succ start (g + 1) := by
      apply Finset.ext
      intro z
      rw [vis, hmodel, h1 z, ihv, ball_succ_eq_layer_succ]
      simp only [Finset.mem_union, Finset.mem_biUnion, List.mem_toFinset, succsF]
      constructor
      · rintro (hz | ⟨u, hu, hzu⟩)
        · exact Or.inl hz
        · exact Or.inr ⟨u, (ihg u).mp hu, hzu⟩
      · rintro (hz | ⟨u, hu, hzu⟩)
        · exact Or.inl hz
        · exact Or.inr ⟨u, (ihg u).mpr hu, hzu⟩
    have hgens : gens succ start (g + 1) = F := by
      rw [gens, hmodel, h2, List.nil_append]
    refine ⟨hvis, fun z => ?_, by rw [hgens]; exact h4⟩
    rw [hgens, h3 z, ihv, layer, ball_succ_eq_layer_succ]
    simp only [Finset.mem_sdiff, Finset.mem_union, Finset.mem_biUnion,
      List.mem_toFinset, succsF]
    constructor
    · rintro ⟨⟨u, hu, hzu⟩, hzv⟩
      exact ⟨Or.inr ⟨u, (ihg u).mp hu, hzu⟩, hzv⟩
    · rintro ⟨hz | ⟨u, hu, hzu⟩, hzv⟩
      · exact absurd hz hzv
      · exact ⟨⟨u, (ihg u).mpr hu, hzu⟩, hzv⟩

theorem mem_gens_iff {g z : Nat} :
    z ∈ gens succ start g ↔ z ∈ layer succ start g :=
  (genState_spec g).2.1 z

theorem gens_nodup (g : Nat) : (gens succ start g).Nodup :=
  (genState_spec g).2.2

theorem gens_zero : gens succ start 0 = [start] := rfl

/-- Once a generation file comes out empty the loop produces nothing
more (the code breaks out at `if(!len) break`). -/
theorem gens_empty_stable {g : Nat} (h : gens succ start g = []) :
    gens succ start (g + 1) = [] := by
  have : gens succ start (g + 1) =
      (procGen succ (vis succ start g) [] (gens succ start g)).2 := rfl
  rw [this, h]
  rfl

theorem layer_empty_of_gens_empty {g : Nat} (h : gens succ start g = []) :
    layer succ start g = ∅ := by
  ext z
  simp only [Finset.not_mem_empty, iff_false]
  intro hz
  have := mem_gens_iff.mpr hz
  rw [h] at this
  cases this

theorem ball_eq_of_layer_empty {g : Nat}
    (h : layer succ start (g + 1) = ∅) :
    ball succ start (g + 1) = ball succ start g := by
  apply Finset.Subset.antisymm
  · intro z hz
    by_contra hzb
    have : z ∈ layer succ start (g + 1) := by
      rw [layer]
      exact Finset.mem_sdiff.mpr ⟨hz, hzb⟩
    rw [h] at this
    cases this
  · exact ball_subset_next g

theorem ball_stab {g : Nat} (h : ball succ start (g + 1) = ball succ start g) :
    ∀ j, g ≤ j → ball succ start j = ball succ start g := by
  intro j hj
  induction j, hj using Nat.le_induction with
  | base => rfl
  | succ j hj ih =>
    have : ball succ start (j + 1) =
        ball succ start j ∪ succsF succ (ball succ start j) := rfl
    rw [this, ih]
    have h2 : ball succ start (g + 1) =
        ball succ start g ∪ succsF succ (ball succ start g) := rfl
    rw [h2] at h
    exact h

theorem ball_subset_range {N : Nat} (hsucc : ∀ u t, t ∈ succ u → t < N)
    (hstart : start < N) : ∀ g, ball succ start g ⊆ Finset.range N := by
  intro g
  induction g with
  | zero =>
    intro z hz
    rw [ball, Finset.mem_singleton] at hz
    subst hz
    exact Finset.mem_range.mpr hstart
  | succ g ih =>
    intro z hz
    rcases Finset.mem_union.mp hz with hz | hz
    · exact ih hz
    · obtain ⟨u, _, hzu⟩ := Finset.mem_biUnion.mp hz
      exact Finset.mem_range.mpr (hsucc u z (List.mem_toFinset.mp hzu))

/-- Termination of the disk-engine search: some generation at index at
most `N` is empty (at which point the loop breaks), because nonempty
generations are pairwise disjoint nonempty subsets of the `N` state
ids. -/
theorem exists_empty_gen {N : Nat} (hsucc : ∀ u t, t ∈ succ u → t < N)
    (hstart : start < N) : ∃ g, g ≤ N ∧ gens succ start g = [] := by
  by_contra hno
  push_neg at hno
  have hne : ∀ g ∈ Finset.range (N + 1), (layer succ start g).Nonempty := by
    intro g hg
    have hgne := hno g (Nat.lt_succ_iff.mp (Finset.mem_range.mp hg))
    obtain ⟨z, hz⟩ := List.exists_mem_of_ne_nil _ hgne
    exact ⟨z, mem_gens_iff.mp hz⟩
  have hdisj : ∀ a ∈ Finset.range (N + 1), ∀ b ∈ Finset.range (N + 1),
      a ≠ b → Disjoint (layer succ start a) (layer succ start b) := by
    intro a _ b _ hab
    rw [Finset.disjoint_left]
    intro z hza hzb
    exact hab (layer_eq_of_mem hza hzb)
  have hsub : (Finset.range (N + 1)).biUnion (layer succ start) ⊆
      Finset.range N := by
    intro z hz
    obtain ⟨g, _, hzg⟩ := Finset.mem_biUnion.mp hz
    exact ball_subset_range hsucc hstart g (layer_subset_ball g hzg)
  have hcard1 : ((Finset.range (N + 1)).biUnion (layer succ start)).card ≤ N := by
    calc ((Finset.range (N + 1)).biUnion (layer succ start)).card
        ≤ (Finset.range N).card := Finset.card_le_card hsub
      _ = N := Finset.card_range N
  have hcard2 : N + 1 ≤ ((Finset.range (N + 1)).biUnion (layer succ start)).card := by
    rw [Finset.card_biUnion hdisj]
    calc N + 1 = ∑ _g ∈ Finset.range (N + 1), 1 := by simp
      _ ≤ ∑ g ∈ Finset.range (N + 1), (layer succ start g).card := by
          apply Finset.sum_le_sum
          intro g hg
          exact Nat.one_le_iff_ne_zero.mpr
            (Finset.card_ne_zero_of_mem (hne g hg).choose_spec)
  omega

/-- Completeness at exhaustion: when a generation file is empty, every
reachable state already sits in one of the earlier generation files (all
of which the loop fully processed). -/
theorem noSolution_complete {g0 : Nat} (h : gens succ start g0 = []) :
    ∀ s, Reachable succ start s → ∃ j, j < g0 ∧ s ∈ gens succ start j := by
  match g0 with
  | 0 =>
    rw [gens_zero] at h
    cases h
  | g1 + 1 =>
    intro s hs
    obtain ⟨k, hp⟩ := hs
    have hstab : ball succ start (g1 + 1) = ball succ start g1 :=
      ball_eq_of_layer_empty (layer_empty_of_gens_empty h)
    have hball : s ∈ ball succ start g1 := by
      rcases le_or_lt k g1 with hk | hk
      · exact ball_mono hk (pathLen_mem_ball hp)
      · have : s ∈ ball succ start k := pathLen_mem_ball hp
        rw [ball_stab hstab k (by omega)] at this
        exact this
    obtain ⟨k2, hk2, hp2⟩ := mem_ball_iff.mp hball
    obtain ⟨j, hj, hl⟩ := exists_layer_of_pathLen hp2
    exact ⟨j, by omega, mem_gens_iff.mpr hl⟩

/-- The backward scan always finds a predecessor and reconstructs a full
path: if the target sits at distance `g+1`, the scan over `GEN-g` down to
`GEN-0` prints exactly one state per generation, each printed state is at
its generation's distance, consecutive printed states are joined by a
move the domain emits, and the last printed state is the start. -/
theorem backScan_spec :
    ∀ (g w : Nat), w ∈ layer succ start (g + 1) →
      (backScan succ start g w).length = g + 1 ∧
      List.Chain' (fun a b => a ∈ succ b) (w :: backScan succ start g w) ∧
      (w :: backScan succ start g w).getLast? = some start := by
  intro g
  induction g with
  | zero =>
    intro w hw
    have hwsucc : w ∈ succ start := by
      rw [layer] at hw
      obtain ⟨hw1, hw0⟩ := Finset.mem_sdiff.mp hw
      rw [ball] at hw1
      rcases Finset.mem_union.mp hw1 with hz | hz
      · exact absurd hz hw0
      · obtain ⟨u, hu, hzu⟩ := Finset.mem_biUnion.mp hz
        rw [ball, Finset.mem_singleton] at hu
        subst hu
        exact List.mem_toFinset.mp hzu
    have hfind : (gens succ start 0).find? (fun pr => decide (w ∈ succ pr)) =
        some start := by
      rw [gens_zero]
      simp [List.find?, hwsucc]
    have hrw : backScan succ start 0 w = [start] := by
      rw [backScan, hfind]
    rw [hrw]
    exact ⟨rfl, List.chain'_pair.mpr hwsucc, rfl⟩
  | succ g ih =>
    intro w hw
    have hexists : ∃ p ∈ gens succ start (g + 1), w ∈ succ p := by
      rw [layer] at hw
      obtain ⟨hw1, hw0⟩ := Finset.mem_sdiff.mp hw
      rw [ball_succ_eq_layer_succ] at hw1
      rcases Finset.mem_union.mp hw1 with hz | hz
      · exact absurd hz hw0
      · obtain ⟨u, hu, hzu⟩ := Finset.mem_biUnion.mp hz
        exact ⟨u, mem_gens_iff.mpr hu, List.mem_toFinset.mp hzu⟩
    obtain ⟨p0, hp0eq⟩ : ∃ p0,
        (gens succ start (g + 1)).find? (fun pr => decide (w ∈ succ pr)) =
          some p0 := by
      obtain ⟨p, hp, hps⟩ := hexists
      have : ((gens succ start (g + 1)).find?
          (fun pr => decide (w ∈ succ pr))).isSome = true :=
        List.find?_isSome.mpr ⟨p, hp, by simpa using hps⟩
      exact Option.isSome_iff_exists.mp this
    have hp0layer : p0 ∈ layer succ start (g + 1) :=
      mem_gens_iff.mp (List.mem_of_find?_eq_some hp0eq)
    have hp0succ : w ∈ succ p0 := by
      have := List.find?_some hp0eq
      simpa using this
    have hrw : backScan succ start (g + 1) w = p0 :: backScan succ start g p0 := by
      rw [backScan, hp0eq]
    obtain ⟨ihlen, ihchain, ihlast⟩ := ih p0 hp0layer
    rw [hrw]
    refine ⟨by simpa using ihlen, ?_, ?_⟩
    · exact List.chain'_cons.mpr ⟨hp0succ, ihchain⟩
    · rw [List.getLast?_cons_cons]
      cases hbs : backScan succ start g p0 with
      | nil =>
        rw [hbs] at ihlen
        cases ihlen
      | cons a t =>
        rw [hbs] at ihlast
        rw [List.getLast?_cons_cons] at ihlast
        exact ihlast

theorem layer_succ_eq (g : Nat) :
    layer succ start (g + 1) =
      succsF succ (layer succ start g) \ ball succ start g := by
  rw [layer, ball_succ_eq_layer_succ]
  ext z
  simp only [Finset.mem_sdiff, Finset.mem_union]
  tauto

theorem mem_ball_iff_layer {g z : Nat} :
    z ∈ ball succ start g ↔ ∃ j ≤ g, z ∈ layer succ start j := by
  constructor
  · intro hz
    obtain ⟨k, hk, hp⟩ := mem_ball_iff.mp hz
    obtain ⟨j, hj, hl⟩ := exists_layer_of_pathLen hp
    exact ⟨j, by omega, hl⟩
  · rintro ⟨j, hj, hl⟩
    exact ball_mono hj (layer_subset_ball j hl)

/-- BFS layering of the `bfsd.c` engine: at the top of iteration `k` the
range `prev` holds exactly the states at distance `k` and `prevprev`
exactly the states at smaller distance. -/
theorem iterD_layers :
    ∀ k, (∀ z, z ∈ (iterD succ start k).2 ↔ z ∈ layer succ start k) ∧
      (∀ z, z ∈ (iterD succ start k).1 ↔ ∃ j, j < k ∧ z ∈ layer succ start j)
  | 0 => by
    constructor
    · intro z
      rw [iterD, layer]
      simp
    · intro z
      rw [iterD]
      simp
  | k + 1 => by
    obtain ⟨ihp, ihpp⟩ := iterD_layers k
    obtain ⟨invpp, invp, _⟩ := iterD_inv succ start k
    constructor
    · intro z
      rw [iterD]
      show z ∈ (stepD succ _ _).2 ↔ _
      rw [stepD]
      rw [rd2_mem_iff (sorted_lt_le invpp) (sorted_lt_le invp) (sortUnique_sorted _)]
      rw [mem_sortUnique, List.mem_flatMap]
      rw [layer_succ_eq]
      simp only [Finset.mem_sdiff, succsF, Finset.mem_biUnion, List.mem_toFinset]
      constructor
      · rintro ⟨⟨u, hu, hzu⟩, hzpp, hzp⟩
        refine ⟨⟨u, (ihp u).mp hu, hzu⟩, ?_⟩
        rw [mem_ball_iff_layer]
        rintro ⟨j, hj, hl⟩
        rcases Nat.lt_or_ge j k with hjk | hjk
        · exact hzpp ((ihpp z).mpr ⟨j, hjk, hl⟩)
        · have : j = k := by omega
          subst this
          exact hzp ((ihp z).mpr hl)
      · rintro ⟨⟨u, hu, hzu⟩, hzb⟩
        rw [mem_ball_iff_layer] at hzb
        refine ⟨⟨u, (ihp u).mpr hu, hzu⟩, fun hm => ?_, fun hm => ?_⟩
        · obtain ⟨j, hj, hl⟩ := (ihpp z).mp hm
          exact hzb ⟨j, by omega, hl⟩
        · exact hzb ⟨k, le_refl k, (ihp z).mp hm⟩
    · intro z
      rw [iterD]
      show z ∈ (stepD succ _ _).1 ↔ _
      rw [stepD]
      rw [mem_sortUnique, List.mem_append]
      constructor
      · rintro (hz | hz)
        · obtain ⟨j, hj, hl⟩ := (ihpp z).mp hz
          exact ⟨j, by omega, hl⟩
        · exact ⟨k, by omega, (ihp z).mp hz⟩
      · rintro ⟨j, hj, hl⟩
        rcases Nat.lt_or_ge j k with hjk | hjk
        · exact Or.inl ((ihpp z).mpr ⟨j, hjk, hl⟩)
        · have : j = k := by omega
          subst this
          exact Or.inr ((ihp z).mpr hl)

/-- BFS layering of the `bfsdu.c` engine on a symmetric (undirected)
move relation: at the top of iteration `k` the range `prev` holds
exactly the states at distance `k` and `prevprev` exactly those at
distance `k - 1`; retaining only two generations is sound because on an
undirected graph a successor of distance-`k` states has distance at
least `k - 1`. -/
theorem iterDU_layers (hsym : ∀ u v, v ∈ succ u → u ∈ succ v) :
    ∀ k, (∀ z, z ∈ (iterDU succ start k).2 ↔ z ∈ layer succ start k) ∧
      (∀ z, z ∈ (iterDU succ start k).1 ↔
        ∃ j, j + 1 = k ∧ z ∈ layer succ start j)
  | 0 => by
    constructor
    · intro z
      rw [iterDU, layer]
      simp
    · intro z
      rw [iterDU]
      simp
  | k + 1 => by
    obtain ⟨ihp, ihpp⟩ := iterDU_layers hsym k
    obtain ⟨invpp, invp, _⟩ := iterDU_inv succ start k
    constructor
    · intro z
      rw [iterDU]
      show z ∈ (stepDU succ _ _).2 ↔ _
      rw [stepDU]
      rw [rd2_mem_iff (sorted_lt_le invpp) (sorted_lt_le invp) (sortUnique_sorted _)]
      rw [mem_sortUnique, List.mem_flatMap]
      constructor
      · rintro ⟨⟨u, hu, hzu⟩, hzpp, hzp⟩
        have hul : u ∈ layer succ start k := (ihp u).mp hu
        have hzball : z ∈ ball succ start (k + 1) := by
          have : z ∈ succsF succ (ball succ start k) :=
            Finset.mem_biUnion.mpr ⟨u, layer_subset_ball k hul,
              List.mem_toFinset.mpr hzu⟩
          show z ∈ ball succ start k ∪ succsF succ (ball succ start k)
          exact Finset.mem_union_right _ this
        obtain ⟨j, hj, hjl⟩ := mem_ball_iff_layer.mp hzball
        have hjk : j = k + 1 := by
          by_contra hne
          have hjlek : j ≤ k := by omega
          have huz : u ∈ succ z := hsym u z hzu
          have hub : u ∈ ball succ start (j + 1) := by
            have : u ∈ succsF succ (ball succ start j) :=
              Finset.mem_biUnion.mpr ⟨z, layer_subset_ball j hjl,
                List.mem_toFinset.mpr huz⟩
            show u ∈ ball succ start j ∪ succsF succ (ball succ start j)
            exact Finset.mem_union_right _ this
          obtain ⟨hpu, humin⟩ := mem_layer_iff.mp hul
          obtain ⟨k2, hk2, hpu2⟩ := mem_ball_iff.mp hub
          have hk3 := humin k2 hpu2
          have hjge : k ≤ j + 1 := by omega
          rcases Nat.lt_or_ge j k with hjk2 | hjk2
          · have : j + 1 = k := by omega
            exact hzpp ((ihpp z).mpr ⟨j, this, hjl⟩)
          · have : j = k := by omega
            subst this
            exact hzp ((ihp z).mpr hjl)
        subst hjk
        exact hjl
      · intro hz
        have hzsucc : z ∈ succsF succ (layer succ start k) := by
          have := @layer_succ_eq succ start k
          rw [this] at hz
          exact (Finset.mem_sdiff.mp hz).1
        obtain ⟨u, hu, hzu⟩ := Finset.mem_biUnion.mp hzsucc
        refine ⟨⟨u, (ihp u).mpr hu, List.mem_toFinset.mp hzu⟩,
          fun hm => ?_, fun hm => ?_⟩
        · obtain ⟨j, hj, hl⟩ := (ihpp z).mp hm
          exact absurd (layer_eq_of_mem hz hl) (by omega)
        · exact absurd (layer_eq_of_mem hz ((ihp z).mp hm)) (by omega)
    · intro z
      rw [iterDU]
      show z ∈ (stepDU succ _ _).1 ↔ _
      rw [stepDU]
      constructor
      · intro hz
        exact ⟨k, rfl, (ihp z).mp hz⟩
      · rintro ⟨j, hj, hl⟩
        have : j = k := by omega
        subst this
        exact (ihp z).mpr hl

end DiskTheorems

/-! ## In-memory engine: the ring queue never exhausts (bfs.c) -/

theorem getD_set_self {l : List PEnt} {c : Nat} (hc : c < l.length) (v : PEnt) :
    (l.set c v).getD c .unv = v := by
  rw [List.getD_eq_getElem?_getD, List.getElem?_set_self hc]
  rfl

theorem getD_set_ne {l : List PEnt} {c i : Nat} (h : c ≠ i) (v : PEnt) :
    (l.set c v).getD i .unv = l.getD i .unv := by
  rw [List.getD_eq_getElem?_getD, List.getElem?_set_ne h, ← List.getD_eq_getElem?_getD]

theorem admCount_le_length (l : List PEnt) : admCount l ≤ l.length :=
  List.countP_le_length _

theorem countP_lt_of_entry_false {p : PEnt → Bool} :
    ∀ {l : List PEnt} {c : Nat}, c < l.length → p (l.getD c .unv) = false →
      l.countP p < l.length
  | [], c => by intro hc; cases hc
  | x :: t, c => by
    intro hc hp
    rw [List.countP_cons]
    cases c with
    | zero =>
      have hx : p x = false := hp
      rw [hx]
      have : List.countP p t ≤ t.length := List.countP_le_length p
      have hz : (if (false = true) then 1 else 0) = 0 := rfl
      simp only [List.length_cons]
      omega
    | succ c =>
      have hct : c < t.length := by simpa using hc
      have := @countP_lt_of_entry_false p t c hct hp
      simp only [List.length_cons]
      have hz1 : (if (true = true) then 1 else 0) = 1 := rfl
      have hz0 : (if (false = true) then 1 else 0) = 0 := rfl
      by_cases hpx : p x = true
      · rw [hpx]; omega
      · rw [Bool.not_eq_true] at hpx; rw [hpx]; omega

theorem countP_set_of_entry {p : PEnt → Bool} :
    ∀ {l : List PEnt} {c : Nat}, c < l.length → p (l.getD c .unv) = false →
      ∀ {v : PEnt}, p v = true → (l.set c v).countP p = l.countP p + 1
  | [], c => by intro hc; cases hc
  | x :: t, c => by
    intro hc hp v hv
    cases c with
    | zero =>
      have hx : p x = false := hp
      rw [List.set]
      rw [List.countP_cons, List.countP_cons, hx, hv]
      simp
    | succ c =>
      have hct : c < t.length := by simpa using hc
      rw [List.set]
      rw [List.countP_cons, List.countP_cons,
        @countP_set_of_entry p t c hct hp v hv]
      omega

theorem admCount_lt_of_unv {l : List PEnt} {c : Nat} (hc : c < l.length)
    (h : l.getD c .unv = .unv) : admCount l < l.length := by
  apply countP_lt_of_entry_false hc
  rw [h]
  decide

theorem admCount_set_fresh {l : List PEnt} {c : Nat} (hc : c < l.length)
    (h : l.getD c .unv = .unv) {v : PEnt} (hv : v ≠ .unv) :
    admCount (l.set c v) = admCount l + 1 := by
  apply countP_set_of_entry hc
  · rw [h]
    decide
  · simpa using hv

theorem isAdm_memInit {n start : Nat} (hs : start < n) (z : Nat) :
    isAdm (memInit n start).par z = true ↔ z = start := by
  rw [memInit, isAdm]
  by_cases hz : z = start
  · subst hz
    rw [getD_set_self (by simpa using hs)]
    simp
  · rw [getD_set_ne (fun he => hz he.symm)]
    have : (List.replicate n PEnt.unv).getD z .unv = .unv := by
      rw [List.getD_eq_getElem?_getD]
      rcases Nat.lt_or_ge z n with h | h
      · rw [List.getElem?_replicate]
        simp [h]
      · rw [List.getElem?_eq_none (by simpa using h)]
        rfl
    rw [this]
    simp [hz]

theorem memInit_invB {n start : Nat} (hs : start < n) :
    MemInvB n (memInit n start) := by
  refine ⟨by simp [memInit], ?_, by simp [memInit], by simp [memInit],
    by simp [memInit, hs]⟩
  rw [memInit]
  have h0 : admCount (List.replicate n PEnt.unv) = 0 := by
    rw [admCount, List.countP_eq_zero]
    intro a ha
    rw [List.eq_of_mem_replicate ha]
    simp
  rw [admCount_set_fresh (by simpa using hs) ?_ (by simp), h0]
  rw [List.getD_eq_getElem?_getD, List.getElem?_replicate]
  simp [hs]

/-- The exhaustion check after an enqueue never fires: at that moment at
least one state has been dequeued and at most `n` admitted, so the ring
holds between 1 and `n - 1` entries and the residues differ. -/
theorem addChildM_spec {n : Nat} {won : Nat → Bool} {cur : Nat} {st : MemSt}
    {c : Nat} (hinv : MemInvB n st) (hd : 1 ≤ st.d) (hc : c < n) :
    addChildM n won cur st c ≠ .error .qex ∧
      ∀ st2, addChildM n won cur st c = .ok st2 →
        MemInvB n st2 ∧ st2.d = st.d := by
  obtain ⟨hlen, hcount, hde, hqlen, hqbound⟩ := hinv
  rw [addChildM]
  by_cases hadm : st.par.getD c .unv ≠ .unv
  · rw [if_pos hadm]
    refine ⟨nofun, fun st2 h => ?_⟩
    cases h
    exact ⟨⟨hlen, hcount, hde, hqlen, hqbound⟩, rfl⟩
  · rw [if_neg hadm]
    push_neg at hadm
    have hfresh : st.e < n := by
      have := @admCount_lt_of_unv st.par c (by omega) hadm
      omega
    by_cases hwon : won c = true
    · rw [if_pos hwon]
      exact ⟨nofun, nofun⟩
    · rw [if_neg hwon]
      have hne : ¬ ((st.e + 1) % n = st.d % n) := by
        intro heq
        have hmod : st.d ≡ st.e + 1 [MOD n] := heq.symm
        have hdvd : n ∣ (st.e + 1 - st.d) :=
          (Nat.modEq_iff_dvd' (by omega)).mp hmod
        have : n ≤ st.e + 1 - st.d := Nat.le_of_dvd (by omega) hdvd
        omega
      rw [if_neg hne]
      refine ⟨nofun, fun st2 h => ?_⟩
      cases h
      refine ⟨⟨by simpa using hlen, ?_, by simp only []; omega, ?_, ?_⟩, rfl⟩
      · show admCount (st.par.set c (.par cur)) = st.e + 1
        rw [admCount_set_fresh (by omega) hadm (by simp), hcount]
      · show (st.q ++ [c]).length = st.e + 1 - st.d
        rw [List.length_append, hqlen]
        simp only [List.length_singleton]
        omega
      · intro x hx
        rcases List.mem_append.mp hx with hx | hx
        · exact hqbound x hx
        · rw [List.mem_singleton.mp hx]
          exact hc

theorem visitList_spec {n : Nat} {won : Nat → Bool} {cur : Nat} :
    ∀ (cs : List Nat) (st : MemSt), MemInvB n st → 1 ≤ st.d →
      (∀ c ∈ cs, c < n) →
      visitList n won cur cs st ≠ .error .qex ∧
        ∀ st2, visitList n won cur cs st = .ok st2 →
          MemInvB n st2 ∧ st2.d = st.d
  | [], st => by
    intro hinv _ _
    refine ⟨nofun, fun st2 h => ?_⟩
    cases h
    exact ⟨hinv, rfl⟩
  | c :: cs, st => by
    intro hinv hd hbound
    obtain ⟨hqex, hok⟩ := @addChildM_spec n won cur st c hinv hd
      (hbound c (List.mem_cons_self c cs))
    rw [visitList]
    cases hac : addChildM n won cur st c with
    | ok st2 =>
      obtain ⟨hinv2, hd2⟩ := hok st2 hac
      obtain ⟨hqex2, hok2⟩ := visitList_spec cs st2 hinv2 (by omega)
        (fun x hx => hbound x (List.mem_cons_of_mem c hx))
      exact ⟨hqex2, fun st3 h3 => by
        obtain ⟨hinv3, hd3⟩ := hok2 st3 h3
        exact ⟨hinv3, by omega⟩⟩
    | error h =>
      refine ⟨fun he => ?_, nofun⟩
      cases he
      exact hqex hac

/-- The `QueueExhausted` branch of `bfs.c` is unreachable: under the
counter invariant no run of the main loop, whatever its fuel, returns
the queue-exhausted error. -/
theorem mrun_no_qex {succ : Nat → List Nat} {n : Nat} {won : Nat → Bool}
    (hsucc : ∀ s, s < n → ∀ t ∈ succ s, t < n) :
    ∀ (f : Nat) (st : MemSt), MemInvB n st →
      mrun succ n won f st ≠ some (.error .qex)
  | 0, st => by
    intro _ h
    cases h
  | f + 1, st => by
    intro hinv
    obtain ⟨hlen, hcount, hde, hqlen, hqbound⟩ := hinv
    rw [mrun]
    by_cases hcond : st.d % n < st.e % n
    · rw [if_pos hcond]
      have hdlt : st.d < st.e := by
        rcases Nat.lt_or_ge st.d st.e with h | h
        · exact h
        · have : st.d = st.e := by omega
          rw [this] at hcond
          omega
      cases hq : st.q with
      | nil =>
        rw [hq] at hqlen
        simp at hqlen
        omega
      | cons c rest =>
        have hcn : c < n := hqbound c (by rw [hq]; exact List.mem_cons_self c rest)
        have hinv2 : MemInvB n { st with q := rest, d := st.d + 1 } := by
          refine ⟨hlen, hcount, by simp; omega, ?_, ?_⟩
          · show rest.length = st.e - (st.d + 1)
            rw [hq] at hqlen
            simp at hqlen
            omega
          · intro x hx
            exact hqbound x (by rw [hq]; exact List.mem_cons_of_mem c hx)
        obtain ⟨hqex, hok⟩ := @visitList_spec n won c (succ c)
          _ hinv2 (by simp) (hsucc c hcn)
        cases hv : visitList n won c (succ c) { st with q := rest, d := st.d + 1 } with
        | ok st2 =>
          simp only [hv]
          exact mrun_no_qex hsucc f st2 (hok st2 hv).1
        | error h =>
          simp only [hv]
          intro he
          have : h = Halt.qex := by
            injection he with he2
            injection he2
          subst this
          exact hqex hv
    · rw [if_neg hcond]
      intro h
      cases h

/-- Bounded termination of the in-memory search: each loop iteration
dequeues one state, at most `n` states are ever enqueued, so fuel
`n + 1` always suffices (the C `while` loop runs at most `n` times). -/
theorem mrun_terminates {succ : Nat → List Nat} {n : Nat} {won : Nat → Bool}
    (hsucc : ∀ s, s < n → ∀ t ∈ succ s, t < n) :
    ∀ (f : Nat) (st : MemSt), MemInvB n st → n - st.d < f →
      mrun succ n won f st ≠ none
  | 0, st => by
    intro _ hf
    omega
  | f + 1, st => by
    intro hinv hf
    obtain ⟨hlen, hcount, hde, hqlen, hqbound⟩ := hinv
    have hen : st.e ≤ n := by
      have := admCount_le_length st.par
      omega
    rw [mrun]
    by_cases hcond : st.d % n < st.e % n
    · rw [if_pos hcond]
      have hdlt : st.d < st.e := by
        rcases Nat.lt_or_ge st.d st.e with h | h
        · exact h
        · have : st.d = st.e := by omega
          rw [this] at hcond
          omega
      cases hq : st.q with
      | nil =>
        intro h
        cases h
      | cons c rest =>
        have hcn : c < n := hqbound c (by rw [hq]; exact List.mem_cons_self c rest)
        have hinv2 : MemInvB n { st with q := rest, d := st.d + 1 } := by
          refine ⟨hlen, hcount, by simp only []; omega, ?_, ?_⟩
          · show rest.length = st.e - (st.d + 1)
            rw [hq] at hqlen
            simp only [List.length_cons] at hqlen
            omega
          · intro x hx
            exact hqbound x (by rw [hq]; exact List.mem_cons_of_mem c hx)
        obtain ⟨hqex, hok⟩ := @visitList_spec n won c (succ c)
          _ hinv2 (by simp) (hsucc c hcn)
        cases hv : visitList n won c (succ c) { st with q := rest, d := st.d + 1 } with
        | ok st2 =>
          simp only [hv]
          obtain ⟨hinvb2, hd2⟩ := hok st2 hv
          apply mrun_terminates hsucc f st2 hinvb2
          have : st2.d = st.d + 1 := hd2
          omega
        | error h =>
          simp only [hv]
          intro he
          cases he
    · rw [if_neg hcond]
      intro h
      cases h

/-! ## In-memory engine: layering and parent chains -/

theorem climbs_preserve {succ : Nat → List Nat} {start : Nat}
    {par : List PEnt} {j z c : Nat} {v : PEnt}
    (h : Climbs succ start par j z) (hc : par.getD c .unv = .unv) :
    Climbs succ start (par.set c v) j z := by
  induction h with
  | zero hroot =>
    apply Climbs.zero
    have hne : c ≠ start := by
      intro he
      rw [he, hroot] at hc
      cases hc
    rw [getD_set_ne hne, hroot]
  | step hcl hpar hsucc ih =>
    rename_i j2 u2 c2
    refine Climbs.step ih ?_ hsucc
    have hne : c ≠ c2 := by
      intro he
      rw [he, hpar] at hc
      cases hc
    rw [getD_set_ne hne, hpar]

/-- The parent chain printed by `showsolution` in `bfs.c`, for a state
whose parent pointers climb to the root in `j` connected steps: it lists
`j + 1` states, starts at the initial state, ends at the queried state,
and each consecutive pair is joined by a move the domain emits.  Any fuel
of at least the chain length gives the same list. -/
theorem parChain_of_climbs {succ : Nat → List Nat} {start : Nat}
    {par : List PEnt} :
    ∀ {j z : Nat}, Climbs succ start par j z → ∀ f, j ≤ f →
      (parChain par f z).length = j + 1 ∧
      (parChain par f z).head? = some start ∧
      (parChain par f z).getLast? = some z ∧
      List.Chain' (fun a b => b ∈ succ a) (parChain par f z) := by
  intro j z h
  induction h with
  | zero hroot =>
    intro f _
    have : parChain par f start = [start] := by
      cases f with
      | zero => rfl
      | succ f => rw [parChain, hroot]
    rw [this]
    exact ⟨rfl, rfl, rfl, List.chain'_singleton start⟩
  | step hcl hpar hsucc ih =>
    rename_i j2 u2 c2
    intro f hf
    match f, hf with
    | f + 1, hf =>
      have hf2 : j2 ≤ f := by omega
      obtain ⟨ihlen, ihhead, ihlast, ihchain⟩ := ih f hf2
      have hrw : parChain par (f + 1) c2 = parChain par f u2 ++ [c2] := by
        rw [parChain, hpar]
      rw [hrw]
      have hne : parChain par f u2 ≠ [] := by
        intro he
        rw [he] at ihlen
        cases ihlen
      refine ⟨by simp [ihlen], ?_, ?_, ?_⟩
      · cases hp : parChain par f u2 with
        | nil => exact absurd hp hne
        | cons a t =>
          rw [hp] at ihhead
          simpa using ihhead
      · simp
      · rw [List.chain'_append]
        refine ⟨ihchain, List.chain'_singleton c2, ?_⟩
        intro x hx y hy
        rw [ihlast] at hx
        cases hx
        cases hy
        exact hsucc

theorem memInit_invL {succ : Nat → List Nat} {start n : Nat}
    {won : Nat → Bool} (hs : start < n) :
    MemInvL succ start won (memInit n start) := by
  refine ⟨0, [start], [], rfl, ?_, ?_, ?_, ?_, List.nodup_singleton start, ?_, ?_⟩
  · intro a ha
    rw [List.mem_singleton.mp ha]
    exact Finset.mem_singleton_self start
  · intro b hb
    cases hb
  · intro z
    rw [isAdm_memInit hs]
    constructor
    · intro hz
      rw [hz]
      exact Or.inl (Finset.mem_singleton_self start)
    · rintro (hz | hz)
      · exact Finset.mem_singleton.mp hz
      · cases hz
  · intro z hz hznot
    rw [layer_succ_eq] at hz
    obtain ⟨hz1, _⟩ := Finset.mem_sdiff.mp hz
    obtain ⟨u, hu, hzu⟩ := Finset.mem_biUnion.mp hz1
    rw [layer, Finset.mem_singleton] at hu
    subst hu
    exact ⟨u, List.mem_singleton_self u, List.mem_toFinset.mp hzu⟩
  · intro z hz
    rw [isAdm_memInit hs] at hz
    subst hz
    refine ⟨0, Finset.mem_singleton_self z, Climbs.zero ?_⟩
    rw [memInit]
    exact getD_set_self (by simpa using hs) _
  · intro z hz hne
    rw [isAdm_memInit hs] at hz
    exact absurd hz hne

theorem isAdm_set {par : List PEnt} {c z : Nat} (hc : c < par.length)
    {v : PEnt} (hv : v ≠ .unv) :
    isAdm (par.set c v) z = true ↔ (z = c ∨ isAdm par z = true) := by
  by_cases hzc : z = c
  · subst hzc
    rw [isAdm, getD_set_self hc]
    simp [hv]
  · rw [isAdm, getD_set_ne (fun h => hzc h.symm), ← isAdm]
    simp [hzc]

theorem isAdm_false_of_unv {par : List PEnt} {c : Nat}
    (h : par.getD c .unv = .unv) : ¬ isAdm par c = true := by
  rw [isAdm, h]
  simp

theorem layer_succ_not_ball {succ : Nat → List Nat} {start k z : Nat}
    (h : z ∈ layer succ start (k + 1)) : z ∉ ball succ start k := by
  rw [layer] at h
  exact (Finset.mem_sdiff.mp h).2

theorem mem_layer_succ_of {succ : Nat → List Nat} {start k u z : Nat}
    (hu : u ∈ layer succ start k) (hzu : z ∈ succ u)
    (hz : z ∉ ball succ start k) : z ∈ layer succ start (k + 1) := by
  rw [layer_succ_eq]
  exact Finset.mem_sdiff.mpr
    ⟨Finset.mem_biUnion.mpr ⟨u, hu, List.mem_toFinset.mpr hzu⟩, hz⟩

theorem enqueue_no_wrap {n : Nat} {st : MemSt} (hinv : MemInvB n st)
    (hd : 1 ≤ st.d) {c : Nat} (hc : c < n)
    (hadm : st.par.getD c .unv = .unv) :
    ¬ ((st.e + 1) % n = st.d % n) := by
  obtain ⟨hlen, hcount, hde, _, _⟩ := hinv
  have hfresh : st.e < n := by
    have := @admCount_lt_of_unv st.par c (by omega) hadm
    omega
  intro heq
  have hmod : st.d ≡ st.e + 1 [MOD n] := heq.symm
  have hdvd : n ∣ (st.e + 1 - st.d) := (Nat.modEq_iff_dvd' (by omega)).mp hmod
  have : n ≤ st.e + 1 - st.d := Nat.le_of_dvd (by omega) hdvd
  omega

/-- Invariant transfer through one `visit_neighbours` call of `bfs.c`:
processing the successor list of a state at distance `k` only admits
fresh states at distance `k + 1`, appends them to the queue, extends the
parent forest by one consistent link per admission, and — if a win child
is hit — hands `showsolution` a state whose parent chain has length
exactly `k + 1` while everything at distance at most `k` (bar the
untested start) is a non-win state. -/
theorem visitRich {succ : Nat → List Nat} {start n : Nat} {won : Nat → Bool}
    {k cur : Nat} (hcur : cur ∈ layer succ start k) :
    ∀ (cs : List Nat) (st : MemSt) (A2 B : List Nat),
      (∀ x ∈ cs, x ∈ succ cur) →
      (∀ x ∈ cs, x < n) →
      MemInvB n st → 1 ≤ st.d →
      st.q = A2 ++ B →
      (∀ a ∈ A2, isAdm st.par a = true) →
      (∀ b ∈ B, b ∈ layer succ start (k + 1)) →
      (∀ z, isAdm st.par z = true ↔ (z ∈ ball succ start k ∨ z ∈ B)) →
      st.q.Nodup →
      (∀ z, isAdm st.par z = true →
        ∃ j, z ∈ layer succ start j ∧ Climbs succ start st.par j z) →
      (∀ z, isAdm st.par z = true → z ≠ start → won z = false) →
      (match visitList n won cur cs st with
       | .ok st2 =>
         ∃ Bnew, st2.q = A2 ++ (B ++ Bnew) ∧
           (∀ b ∈ B ++ Bnew, b ∈ layer succ start (k + 1)) ∧
           (∀ z, isAdm st2.par z = true ↔
             (z ∈ ball succ start k ∨ z ∈ B ++ Bnew)) ∧
           st2.q.Nodup ∧
           (∀ z, isAdm st2.par z = true →
             ∃ j, z ∈ layer succ start j ∧ Climbs succ start st2.par j z) ∧
           (∀ z, isAdm st2.par z = true → z ≠ start → won z = false) ∧
           (∀ x ∈ cs, isAdm st2.par x = true) ∧
           MemInvB n st2 ∧ st2.d = st.d
       | .error .qex => False
       | .error (.won c st2) =>
         won c = true ∧ c ∈ layer succ start (k + 1) ∧
           Climbs succ start st2.par (k + 1) c ∧
           ∀ z ∈ ball succ start k, z ≠ start → won z = false)
  | [], st, A2, B => by
    intro _ _ hinvb _ hq hA2adm hBlayer h4 h6 h7 h8
    rw [visitList]
    refine ⟨[], by rw [hq, List.append_nil], by simpa using hBlayer,
      by simpa using h4, h6, h7, h8, ?_, hinvb, rfl⟩
    intro x hx
    cases hx
  | c :: cs, st, A2, B => by
    intro hcssucc hcsbound hinvb hd hq hA2adm hBlayer h4 h6 h7 h8
    have hlen : st.par.length = n := hinvb.1
    have hcn : c < n := hcsbound c (List.mem_cons_self c cs)
    have hcsucc : c ∈ succ cur := hcssucc c (List.mem_cons_self c cs)
    by_cases hadm : st.par.getD c .unv ≠ .unv
    · have haddc : addChildM n won cur st c = .ok st := by
        rw [addChildM, if_pos hadm]
      have hvis : visitList n won cur (c :: cs) st = visitList n won cur cs st := by
        rw [visitList, haddc]
      rw [hvis]
      have ih := visitRich hcur cs st A2 B
        (fun x hx => hcssucc x (List.mem_cons_of_mem c hx))
        (fun x hx => hcsbound x (List.mem_cons_of_mem c hx))
        hinvb hd hq hA2adm hBlayer h4 h6 h7 h8
      revert ih
      cases hv : visitList n won cur cs st with
      | ok st2 =>
        intro ih
        obtain ⟨Bnew, g1, g2, g3, g4, g5, g6, g7, g8, g9⟩ := ih
        refine ⟨Bnew, g1, g2, g3, g4, g5, g6, ?_, g8, g9⟩
        intro x hx
        rcases List.mem_cons.mp hx with rfl | hx2
        · rw [g3 x]
          have := (h4 x).mp (by simpa [isAdm] using hadm)
          rcases this with hb | hb
          · exact Or.inl hb
          · exact Or.inr (List.mem_append_left _ hb)
        · exact g7 x hx2
      | error h =>
        intro ih
        cases h with
        | qex => exact ih
        | won c2 st2 => exact ih
    · push_neg at hadm
      have hfreshAdm : ¬ isAdm st.par c = true := isAdm_false_of_unv hadm
      have hcball : c ∉ ball succ start k ∧ c ∉ B := by
        constructor
        · intro hm
          exact hfreshAdm ((h4 c).mpr (Or.inl hm))
        · intro hm
          exact hfreshAdm ((h4 c).mpr (Or.inr hm))
      have hclayer : c ∈ layer succ start (k + 1) :=
        mem_layer_succ_of hcur hcsucc hcball.1
      have hcuradm : isAdm st.par cur = true :=
        (h4 cur).mpr (Or.inl (layer_subset_ball k hcur))
      obtain ⟨jc, hjcl, hjclimb⟩ := h7 cur hcuradm
      have hjck : jc = k := layer_eq_of_mem hjcl hcur
      subst hjck
      have hclimbNew : Climbs succ start (st.par.set c (.par cur)) (jc + 1) c := by
        refine Climbs.step (climbs_preserve hjclimb hadm) ?_ hcsucc
        exact getD_set_self (by omega) _
      by_cases hwon : won c = true
      · have hvis : visitList n won cur (c :: cs) st =
            .error (.won c { st with par := st.par.set c (.par cur) }) := by
          rw [visitList, addChildM, if_neg (by simpa using hadm), if_pos hwon]
        rw [hvis]
        refine ⟨hwon, hclayer, hclimbNew, ?_⟩
        intro z hz hzs
        have hzadm : isAdm st.par z = true := (h4 z).mpr (Or.inl hz)
        exact h8 z hzadm hzs
      · have hne := enqueue_no_wrap hinvb hd hcn hadm
        have haddc : addChildM n won cur st c =
            .ok { st with par := st.par.set c (.par cur), q := st.q ++ [c], e := st.e + 1 } := by
          rw [addChildM, if_neg (by simpa using hadm), if_neg hwon, if_neg hne]
        have hvis : visitList n won cur (c :: cs) st =
            visitList n won cur cs
              { st with par := st.par.set c (.par cur), q := st.q ++ [c], e := st.e + 1 } := by
          rw [visitList, haddc]
        rw [hvis]
        obtain ⟨_, hok⟩ := @addChildM_spec n won cur st c hinvb hd hcn
        have hinvb2 := hok _ haddc
        have hstNew : MemInvB n
            { st with par := st.par.set c (.par cur), q := st.q ++ [c], e := st.e + 1 } :=
          hinvb2.1
        have ih := @visitRich succ start n won jc cur hcur cs
          { st with par := st.par.set c (.par cur), q := st.q ++ [c], e := st.e + 1 }
          A2 (B ++ [c])
          (fun x hx => hcssucc x (List.mem_cons_of_mem c hx))
          (fun x hx => hcsbound x (List.mem_cons_of_mem c hx))
          hstNew hd
          (by show st.q ++ [c] = A2 ++ (B ++ [c]); rw [hq, List.append_assoc])
          (by
            intro a ha
            show isAdm (st.par.set c (.par cur)) a = true
            rw [isAdm_set (by omega) (by simp)]
            exact Or.inr (hA2adm a ha))
          (by
            intro b hb
            rcases List.mem_append.mp hb with hb | hb
            · exact hBlayer b hb
            · rw [List.mem_singleton.mp hb]
              exact hclayer)
          (by
            intro z
            show isAdm (st.par.set c (.par cur)) z = true ↔ _
            rw [isAdm_set (by omega) (by simp), h4 z]
            constructor
            · rintro (rfl | hb | hB)
              · exact Or.inr (List.mem_append_right _ (List.mem_singleton_self z))
              · exact Or.inl hb
              · exact Or.inr (List.mem_append_left _ hB)
            · rintro (hb | hB)
              · exact Or.inr (Or.inl hb)
              · rcases List.mem_append.mp hB with hB | hB
                · exact Or.inr (Or.inr hB)
                · exact Or.inl (List.mem_singleton.mp hB))
          (by
            show (st.q ++ [c]).Nodup
            rw [List.nodup_append]
            refine ⟨h6, List.nodup_singleton c, ?_⟩
            intro z hz1 hz2
            rw [List.mem_singleton.mp hz2] at hz1
            rw [hq] at hz1
            rcases List.mem_append.mp hz1 with hz | hz
            · exact hfreshAdm (hA2adm c hz)
            · exact hcball.2 hz)
          (by
            intro z hz
            show ∃ j, z ∈ layer succ start j ∧
              Climbs succ start (st.par.set c (.par cur)) j z
            rw [isAdm_set (by omega) (by simp)] at hz
            rcases hz with rfl | hz
            · exact ⟨jc + 1, hclayer, hclimbNew⟩
            · obtain ⟨j, hjl, hjc⟩ := h7 z hz
              exact ⟨j, hjl, climbs_preserve hjc hadm⟩)
          (by
            intro z hz hzs
            rw [isAdm_set (by omega) (by simp)] at hz
            rcases hz with rfl | hz
            · simpa using hwon
            · exact h8 z hz hzs)
        revert ih
        cases hv : visitList n won cur cs
            { st with par := st.par.set c (.par cur), q := st.q ++ [c], e := st.e + 1 } with
        | ok st2 =>
          intro ih
          obtain ⟨Bnew, g1, g2, g3, g4, g5, g6, g7, g8, g9⟩ := ih
          refine ⟨c :: Bnew, ?_, ?_, ?_, g4, g5, g6, ?_, g8, g9⟩
          · rw [g1, List.append_assoc]
            rfl
          · intro b hb
            apply g2
            simp only [List.mem_append, List.mem_singleton, List.mem_cons] at hb ⊢
            tauto
          · intro z
            rw [g3 z]
            simp only [List.mem_append, List.mem_singleton, List.mem_cons]
            tauto
          · intro x hx
            rcases List.mem_cons.mp hx with rfl | hx2
            · rw [g3 x]
              exact Or.inr (List.mem_append_left _
                (List.mem_append_right _ (List.mem_singleton_self x)))
            · exact g7 x hx2
        | error h =>
          intro ih
          cases h with
          | qex => exact ih
          | won c2 st2 =>
            obtain ⟨w1, w2, w3, w4⟩ := ih
            exact ⟨w1, w2, w3, w4⟩

/-- Invariant preservation over the whole `solver_bfs` loop of `bfs.c`:
from any layered state the run either runs out of fuel, exits the loop
with the layering invariant intact, or stops at a win state satisfying
`WonProp`; the queue-exhausted exit never happens. -/
theorem mrunRich {succ : Nat → List Nat} {start n : Nat} {won : Nat → Bool}
    (hsucc : ∀ s, s < n → ∀ t ∈ succ s, t < n) :
    ∀ (f : Nat) (st : MemSt), MemInvB n st → MemInvL succ start won st →
      (match mrun succ n won f st with
       | none => True
       | some (.ok st2) => MemInvL succ start won st2
       | some (.error .qex) => False
       | some (.error (.won c st2)) => WonProp succ start won c st2)
  | 0, st => by
    intro _ _
    rw [mrun]
    trivial
  | f + 1, st => by
    intro hinvb hinvl
    obtain ⟨hlen, hcount, hde, hqlen, hqbound⟩ := hinvb
    by_cases hcond : st.d % n < st.e % n
    · have hdlt : st.d < st.e := by
        rcases Nat.lt_or_ge st.d st.e with h | h
        · exact h
        · have : st.d = st.e := by omega
          rw [this] at hcond
          omega
      cases hq : st.q with
      | nil =>
        exfalso
        rw [hq] at hqlen
        simp at hqlen
        omega
      | cons c rest =>
        have hcn : c < n := hqbound c (by rw [hq]; exact List.mem_cons_self c rest)
        obtain ⟨k, A, B, m1, m2, m3, m4, m5, m6, m7, m8⟩ := hinvl
        have hqrw : c :: rest = A ++ B := by rw [← hq, m1]
        have hrestnodup : rest.Nodup := by
          have := m6
          rw [m1, ← hqrw] at this
          exact (List.nodup_cons.mp this).2
        have hnorm : ∃ kc A2 B0, c ∈ layer succ start kc ∧ rest = A2 ++ B0 ∧
            (∀ a ∈ A2, a ∈ layer succ start kc) ∧
            (∀ b ∈ B0, b ∈ layer succ start (kc + 1)) ∧
            (∀ z, isAdm st.par z = true ↔
              (z ∈ ball succ start kc ∨ z ∈ B0)) ∧
            (∀ z ∈ layer succ start (kc + 1), z ∉ B0 →
              ∃ u ∈ c :: A2, z ∈ succ u) := by
          cases hA : A with
          | cons a A2 =>
            rw [hA] at hqrw
            simp only [List.cons_append, List.cons.injEq] at hqrw
            obtain ⟨hca, hrest⟩ := hqrw
            subst hca
            refine ⟨k, A2, B, m2 c (by rw [hA]; exact List.mem_cons_self c A2),
              hrest, ?_, m3, m4, ?_⟩
            · intro a2 ha2
              exact m2 a2 (by rw [hA]; exact List.mem_cons_of_mem c ha2)
            · intro z hz hznb
              obtain ⟨u, hu, hzu⟩ := m5 z hz hznb
              rw [hA] at hu
              exact ⟨u, hu, hzu⟩
          | nil =>
            rw [hA, List.nil_append] at hqrw
            have hball2 : ∀ z, z ∈ ball succ start (k + 1) ↔
                (z ∈ ball succ start k ∨ z ∈ B) := by
              intro z
              constructor
              · intro hz
                obtain ⟨j, hj, hjl⟩ := mem_ball_iff_layer.mp hz
                rcases Nat.lt_or_ge j (k + 1) with hjk | hjk
                · exact Or.inl (mem_ball_iff_layer.mpr ⟨j, by omega, hjl⟩)
                · have : j = k + 1 := by omega
                  subst this
                  by_contra hcon
                  push_neg at hcon
                  obtain ⟨u, hu, _⟩ := m5 z hjl hcon.2
                  rw [hA] at hu
                  cases hu
              · rintro (hz | hz)
                · exact ball_subset_next k hz
                · exact layer_subset_ball (k + 1) (m3 z hz)
            refine ⟨k + 1, rest, [],
              m3 c (by rw [← hqrw]; exact List.mem_cons_self c rest),
              (List.append_nil rest).symm, ?_, ?_, ?_, ?_⟩
            · intro a2 ha2
              exact m3 a2 (by rw [← hqrw]; exact List.mem_cons_of_mem c ha2)
            · intro b hb
              cases hb
            · intro z
              rw [m4 z, ← hball2 z]
              simp
            · intro z hz hznb
              rw [layer_succ_eq] at hz
              obtain ⟨hz1, hz2⟩ := Finset.mem_sdiff.mp hz
              obtain ⟨u, hu, hzu⟩ := Finset.mem_biUnion.mp hz1
              have hub : u ∈ ball succ start k ∨ u ∈ B :=
                (hball2 u).mp (layer_subset_ball (k + 1) hu)
              rcases hub with hub | hub
              · exact absurd hub (layer_succ_not_ball hu)
              · rw [← hqrw] at hub
                exact ⟨u, hub, List.mem_toFinset.mp hzu⟩
        obtain ⟨kc, A2, B0, n1, n2, n3, n4, n5, n6⟩ := hnorm
        have hinvb2 : MemInvB n { st with q := rest, d := st.d + 1 } := by
          refine ⟨hlen, hcount, by simp only []; omega, ?_, ?_⟩
          · show rest.length = st.e - (st.d + 1)
            rw [hq] at hqlen
            simp only [List.length_cons] at hqlen
            omega
          · intro x hx
            exact hqbound x (by rw [hq]; exact List.mem_cons_of_mem c hx)
        have hvr := @visitRich succ start n won kc c n1 (succ c)
          { st with q := rest, d := st.d + 1 } A2 B0
          (fun x hx => hx) (hsucc c hcn) hinvb2 (by simp)
          (by show rest = A2 ++ B0; exact n2)
          (by
            intro a ha
            show isAdm st.par a = true
            exact (n5 a).mpr (Or.inl (layer_subset_ball kc (n3 a ha))))
          n4
          (by intro z; exact n5 z)
          (by show rest.Nodup; exact hrestnodup)
          (by intro z hz; exact m7 z hz)
          (by intro z hz; exact m8 z hz)
        have hrun : mrun succ n won (f + 1) st =
            (match visitList n won c (succ c) { st with q := rest, d := st.d + 1 } with
             | .ok st2 => mrun succ n won f st2
             | .error h => some (.error h)) := by
          rw [mrun, if_pos hcond, hq]
        rw [hrun]
        revert hvr
        cases hv : visitList n won c (succ c) { st with q := rest, d := st.d + 1 } with
        | ok st2 =>
          intro hvr
          obtain ⟨Bnew, g1, g2, g3, g4, g5, g6, g7, g8, g9⟩ := hvr
          have hinvl2 : MemInvL succ start won st2 := by
            refine ⟨kc, A2, B0 ++ Bnew, g1, n3, g2, g3, ?_, g4, g5, g6⟩
            intro z hz hznb
            have hznb0 : z ∉ B0 := fun hm => hznb (List.mem_append_left _ hm)
            obtain ⟨u, hu, hzu⟩ := n6 z hz hznb0
            rcases List.mem_cons.mp hu with rfl | hu2
            · exfalso
              have hzadm : isAdm st2.par z = true := g7 z hzu
              rcases (g3 z).mp hzadm with hb | hb
              · exact layer_succ_not_ball hz hb
              · exact hznb hb
            · exact ⟨u, hu2, hzu⟩
          exact mrunRich hsucc f st2 g8 hinvl2
        | error h =>
          intro hvr
          cases h with
          | qex => exact hvr
          | won c2 st2 =>
            obtain ⟨w1, w2, w3, w4⟩ := hvr
            exact ⟨kc, w1, w2, w3, w4⟩
    · have hrun : mrun succ n won (f + 1) st = some (.ok st) := by
        rw [mrun, if_neg hcond]
      rw [hrun]
      exact hinvl

/-! ## Parallel admission (bfs2p.c) -/

theorem runAdmits_visited (v : Finset Nat) :
    ∀ l : List Nat, (runAdmits v l).1 = v ∪ l.toFinset := by
  intro l
  induction l generalizing v with
  | nil => simp [runAdmits]
  | cons x ss ih =>
    rw [runAdmits]
    by_cases hx : x ∈ v
    · rw [if_pos hx, ih v]
      ext t
      simp only [Finset.mem_union, List.toFinset_cons, Finset.mem_insert,
        List.mem_toFinset]
      constructor
      · rintro (ht | ht)
        · exact Or.inl ht
        · exact Or.inr (Or.inr ht)
      · rintro (ht | ht | ht)
        · exact Or.inl ht
        · exact Or.inl (ht ▸ hx)
        · exact Or.inr ht
    · rw [if_neg hx]
      show (runAdmits (insert x v) ss).1 = _
      rw [ih (insert x v)]
      ext t
      simp only [Finset.mem_union, Finset.mem_insert, List.toFinset_cons,
        List.mem_toFinset]
      tauto

theorem runAdmits_count (s : Nat) :
    ∀ (l : List Nat) (v : Finset Nat),
      ((runAdmits v l).2.count s) = if s ∈ l ∧ s ∉ v then 1 else 0 := by
  intro l
  induction l with
  | nil =>
    intro v
    simp [runAdmits]
  | cons x ss ih =>
    intro v
    rw [runAdmits]
    by_cases hx : x ∈ v
    · rw [if_pos hx, ih v]
      by_cases hxs : s = x
      · subst hxs
        rw [if_neg (fun h => h.2 hx), if_neg (fun h => h.2 hx)]
      · have hmem : s ∈ x :: ss ∧ s ∉ v ↔ s ∈ ss ∧ s ∉ v := by
          simp [List.mem_cons, hxs]
        rw [if_congr hmem rfl rfl]
    · rw [if_neg hx]
      show (x :: (runAdmits (insert x v) ss).2).count s = _
      rw [List.count_cons, ih (insert x v)]
      by_cases hxs : s = x
      · subst hxs
        have h1 : ¬(s ∈ ss ∧ s ∉ insert s v) :=
          fun h => h.2 (Finset.mem_insert_self s v)
        have h2 : s ∈ s :: ss ∧ s ∉ v := ⟨by simp, hx⟩
        rw [if_neg h1, if_pos h2]
        simp
      · have hmem : s ∈ ss ∧ s ∉ insert x v ↔ s ∈ x :: ss ∧ s ∉ v := by
          simp only [Finset.mem_insert, List.mem_cons]
          constructor
          · rintro ⟨h1, h2⟩
            exact ⟨Or.inr h1, fun hv => h2 (Or.inr hv)⟩
          · rintro ⟨h1, h2⟩
            rcases h1 with h1 | h1
            · exact absurd h1 hxs
            · exact ⟨h1, fun hv => hv.elim hxs h2⟩
        rw [if_congr hmem rfl rfl]
        have hx2 : ¬x = s := fun h => hxs h.symm
        simp [hx2]

/-! ## The win test never fires when won is identically false -/

theorem addChildM_no_won {n : Nat} {won : Nat → Bool} {cur : Nat} {st : MemSt}
    {c : Nat} (hwon : won c = false) {c2 : Nat} {st2 : MemSt} :
    addChildM n won cur st c ≠ .error (.won c2 st2) := by
  rw [addChildM]
  split_ifs with h1 h2 h3
  · nofun
  · rw [hwon] at h2
    cases h2
  · nofun
  · nofun

theorem visitList_no_won {n : Nat} {won : Nat → Bool} {cur : Nat}
    (hwon : ∀ s, won s = false) :
    ∀ (cs : List Nat) (st : MemSt) {c2 : Nat} {st2 : MemSt},
      visitList n won cur cs st ≠ .error (.won c2 st2) := by
  intro cs
  induction cs with
  | nil =>
    intro st c2 st2
    nofun
  | cons c cs ih =>
    intro st c2 st2 h
    cases haddc : addChildM n won cur st c with
    | ok st3 =>
      have hv : visitList n won cur (c :: cs) st = visitList n won cur cs st3 := by
        rw [visitList, haddc]
      rw [hv] at h
      exact ih st3 h
    | error hh =>
      cases hh with
      | qex =>
        have hv : visitList n won cur (c :: cs) st = .error .qex := by
          rw [visitList, haddc]
        rw [hv] at h
        simp at h
      | won cw stw => exact addChildM_no_won (hwon c) haddc

theorem mrun_no_won {succ : Nat → List Nat} {n : Nat} {won : Nat → Bool}
    (hwon : ∀ s, won s = false) :
    ∀ (f : Nat) (st : MemSt) {c2 : Nat} {st2 : MemSt},
      mrun succ n won f st ≠ some (.error (.won c2 st2)) := by
  intro f
  induction f with
  | zero =>
    intro st c2 st2 h
    rw [mrun] at h
    exact Option.noConfusion h
  | succ f ih =>
    intro st c2 st2 h
    by_cases hcond : st.d % n < st.e % n
    · cases hq : st.q with
      | nil =>
        have hrun : mrun succ n won (f + 1) st = some (.ok st) := by
          rw [mrun, if_pos hcond, hq]
        rw [hrun] at h
        simp at h
      | cons c rest =>
        have hrun : mrun succ n won (f + 1) st =
            (match visitList n won c (succ c) { st with q := rest, d := st.d + 1 } with
              | .ok st2 => mrun succ n won f st2
              | .error hh => some (.error hh)) := by
          rw [mrun, if_pos hcond, hq]
        rw [hrun] at h
        cases hv : visitList n won c (succ c) { st with q := rest, d := st.d + 1 } with
        | ok st3 =>
          rw [hv] at h
          exact ih st3 h
        | error hh =>
          rw [hv] at h
          cases hh with
          | qex => simp at h
          | won cw stw => exact visitList_no_won hwon _ _ hv
    · have hrun : mrun succ n won (f + 1) st = some (.ok st) := by
        rw [mrun, if_neg hcond]
      rw [hrun] at h
      simp at h

/-! ## The npuzzle permutation codec (encode_state / decode_state) -/

theorem countP_split_le (m : Nat) :
    ∀ l : List Nat,
      l.countP (fun t => decide (m ≤ t)) =
        l.countP (fun t => decide (t = m)) +
          l.countP (fun t => decide (m + 1 ≤ t)) := by
  intro l
  induction l with
  | nil => rfl
  | cons x l ih =>
    simp only [List.countP_cons, ih]
    rcases Nat.lt_trichotomy x m with h | h | h
    · rw [decide_eq_false (by omega : ¬m ≤ x), decide_eq_false (by omega : ¬x = m),
        decide_eq_false (by omega : ¬m + 1 ≤ x)]
      simp
    · rw [decide_eq_true (by omega : m ≤ x), decide_eq_true (by omega : x = m),
        decide_eq_false (by omega : ¬m + 1 ≤ x)]
      simp only [if_pos rfl, if_neg (by nofun : ¬false = true)]
      omega
    · rw [decide_eq_true (by omega : m ≤ x), decide_eq_false (by omega : ¬x = m),
        decide_eq_true (by omega : m + 1 ≤ x)]
      simp only [if_pos rfl, if_neg (by nofun : ¬false = true)]
      omega

theorem cntUn_add_countP (taken : List Nat) :
    ∀ (len m : Nat),
      len ≤ cntUn taken m len + taken.countP (fun t => decide (m ≤ t)) := by
  intro len
  induction len with
  | zero => intro m; exact Nat.zero_le _
  | succ len ih =>
    intro m
    rw [cntUn]
    have hsplit := countP_split_le m taken
    by_cases hm : taken.contains m = true
    · rw [if_pos hm]
      have hmem : m ∈ taken := by simpa using hm
      have h1 : 0 < taken.countP (fun t => decide (t = m)) :=
        List.countP_pos.mpr ⟨m, hmem, by simp⟩
      have h2 := ih (m + 1)
      omega
    · rw [if_neg hm]
      have h2 := ih (m + 1)
      omega

theorem cntUn_eq_countP (taken : List Nat) :
    ∀ (len m : Nat),
      cntUn taken m len =
        (List.range len).countP (fun i => !taken.contains (m + i)) := by
  intro len
  induction len with
  | zero => intro m; rfl
  | succ len ih =>
    intro m
    rw [cntUn, List.range_succ_eq_map, List.countP_cons, List.countP_map]
    have hcongr : (List.range len).countP
          ((fun i => !taken.contains (m + i)) ∘ Nat.succ) =
        (List.range len).countP (fun i => !taken.contains (m + 1 + i)) := by
      apply List.countP_congr
      intro a _
      have hadd : m + Nat.succ a = m + 1 + a := by omega
      simp [Function.comp, hadd]
    rw [hcongr, ← ih (m + 1)]
    cases hm : taken.contains m with
    | true =>
      have hmem : m ∈ taken := by simpa using hm
      simp [hmem]
    | false =>
      have hmem : m ∉ taken := by simpa using hm
      simp [hmem]
      omega

theorem nthUntaken_go (taken : List Nat) :
    ∀ (len f m a : Nat), taken.contains (m + len) = false →
      a = cntUn taken m len → len < f → nthUntaken taken f m a = m + len := by
  intro len
  induction len with
  | zero =>
    intro f m a hx ha hf
    cases f with
    | zero => omega
    | succ f =>
      rw [nthUntaken]
      rw [Nat.add_zero] at hx
      rw [hx, if_neg (by simp)]
      have ha0 : a = 0 := ha.trans rfl
      rw [if_pos ha0, Nat.add_zero]
  | succ len ih =>
    intro f m a hx ha hf
    cases f with
    | zero => omega
    | succ f =>
      rw [nthUntaken]
      rw [cntUn] at ha
      have hx2 : taken.contains (m + 1 + len) = false := by
        have h : m + 1 + len = m + (len + 1) := by omega
        rw [h]
        exact hx
      have heq : m + (len + 1) = m + 1 + len := by omega
      cases hm : taken.contains m with
      | true =>
        rw [if_pos rfl]
        have ha2 : a = cntUn taken (m + 1) len := by rw [ha, hm]; simp
        rw [heq]
        exact ih f (m + 1) a hx2 ha2 (by omega)
      | false =>
        rw [if_neg (by nofun : ¬false = true)]
        have ha1 : a = 1 + cntUn taken (m + 1) len := by rw [ha, hm]; simp
        have hane : ¬a = 0 := by omega
        rw [if_neg hane]
        have ha2 : a - 1 = cntUn taken (m + 1) len := by omega
        rw [heq]
        exact ih f (m + 1) (a - 1) hx2 ha2 (by omega)

theorem encDigit_le {taken : List Nat} {m : Nat} {rest : List Nat}
    (hnd : (m :: rest).Nodup)
    (hpart : ∀ t, (t ∈ m :: rest ∨ t ∈ taken) ↔
      t < (m :: rest).length + taken.length) :
    (List.range m).countP (fun t => !taken.contains t) ≤ rest.length := by
  have hcount : (List.range m).countP (fun t => !taken.contains t) =
      ((List.range m).filter (fun t => !taken.contains t)).length :=
    List.countP_eq_length_filter _ _
  rw [hcount]
  have hndF : ((List.range m).filter (fun t => !taken.contains t)).Nodup :=
    (List.nodup_range m).filter _
  have hsub : ∀ t ∈ (List.range m).filter (fun t => !taken.contains t),
      t ∈ rest := by
    intro t ht
    have h1 : t ∈ List.range m := List.mem_of_mem_filter ht
    have h2 := List.of_mem_filter ht
    have htm : t < m := List.mem_range.mp h1
    have hmr : m < (m :: rest).length + taken.length :=
      (hpart m).mp (Or.inl (by simp))
    have := (hpart t).mpr (by omega)
    rcases this with hcons | htk
    · rcases List.mem_cons.mp hcons with rfl | hr
      · omega
      · exact hr
    · exfalso
      simp at h2
      exact h2 htk
  have h1 : ((List.range m).filter (fun t => !taken.contains t)).toFinset.card =
      ((List.range m).filter (fun t => !taken.contains t)).length :=
    List.toFinset_card_of_nodup hndF
  have h2 : ((List.range m).filter (fun t => !taken.contains t)).toFinset ⊆
      rest.toFinset := by
    intro t ht
    rw [List.mem_toFinset] at ht ⊢
    exact hsub t ht
  have h3 : rest.toFinset.card ≤ rest.length := rest.toFinset_card_le
  have h4 := Finset.card_le_card h2
  omega

theorem encAux_lt :
    ∀ (l taken : List Nat), l.Nodup → (∀ t ∈ l, t ∉ taken) →
      (∀ t, (t ∈ l ∨ t ∈ taken) ↔ t < l.length + taken.length) →
      encAux taken l < Nat.factorial l.length := by
  intro l
  induction l with
  | nil =>
    intro taken _ _ _
    exact Nat.one_pos
  | cons m rest ih =>
    intro taken hnd hdisj hpart
    rw [encAux]
    have hdig : (List.range m).countP (fun t => !taken.contains t) ≤ rest.length :=
      encDigit_le hnd hpart
    have hrec : encAux (m :: taken) rest < Nat.factorial rest.length := by
      apply ih (m :: taken) (List.Nodup.of_cons hnd)
      · intro t ht htm
        rcases List.mem_cons.mp htm with rfl | htk
        · exact (List.nodup_cons.mp hnd).1 ht
        · exact hdisj t (List.mem_cons_of_mem m ht) htk
      · intro t
        have := hpart t
        simp only [List.mem_cons, List.length_cons] at this ⊢
        constructor
        · intro h
          have : t ∈ m :: rest ∨ t ∈ taken := by
            rcases h with h | h | h
            · exact Or.inl (List.mem_cons_of_mem m h)
            · exact Or.inl (h ▸ List.mem_cons_self m rest)
            · exact Or.inr h
          have := (hpart t).mp this
          simp only [List.length_cons] at this
          omega
        · intro h
          have h2 : t ∈ m :: rest ∨ t ∈ taken := (hpart t).mpr (by
            simp only [List.length_cons]
            omega)
          rcases h2 with h2 | h2
          · rcases List.mem_cons.mp h2 with rfl | hr
            · exact Or.inr (Or.inl rfl)
            · exact Or.inl hr
          · exact Or.inr (Or.inr h2)
    have hfac := Nat.factorial_succ rest.length
    have hle : (List.range m).countP (fun t => !taken.contains t) *
        Nat.factorial rest.length ≤ rest.length * Nat.factorial rest.length :=
      Nat.mul_le_mul_right _ hdig
    have hsum : (rest.length + 1) * Nat.factorial rest.length =
        rest.length * Nat.factorial rest.length + Nat.factorial rest.length := by
      ring
    simp only [List.length_cons, hfac]
    omega

theorem decAux_cons (taken : List Nat) (v k : Nat) :
    decAux taken v (k + 1) =
      nthUntaken taken (taken.length + v / Nat.factorial k + 1) 0
          (v / Nat.factorial k) ::
        decAux
          (nthUntaken taken (taken.length + v / Nat.factorial k + 1) 0
              (v / Nat.factorial k) :: taken)
          (v % Nat.factorial k) k := rfl

theorem decAux_encAux :
    ∀ (l taken : List Nat), l.Nodup → (∀ t ∈ l, t ∉ taken) →
      (∀ t, (t ∈ l ∨ t ∈ taken) ↔ t < l.length + taken.length) →
      decAux taken (encAux taken l) l.length = l := by
  intro l
  induction l with
  | nil =>
    intro taken _ _ _
    rfl
  | cons m rest ih =>
    intro taken hnd hdisj hpart
    have hdisj2 : ∀ t ∈ rest, t ∉ m :: taken := by
      intro t ht htm
      rcases List.mem_cons.mp htm with rfl | htk
      · exact (List.nodup_cons.mp hnd).1 ht
      · exact hdisj t (List.mem_cons_of_mem m ht) htk
    have hpart2 : ∀ t, (t ∈ rest ∨ t ∈ m :: taken) ↔
        t < rest.length + (m :: taken).length := by
      intro t
      simp only [List.mem_cons, List.length_cons]
      constructor
      · intro h
        have h2 : t ∈ m :: rest ∨ t ∈ taken := by
          rcases h with h | h | h
          · exact Or.inl (List.mem_cons_of_mem m h)
          · exact Or.inl (h ▸ List.mem_cons_self m rest)
          · exact Or.inr h
        have := (hpart t).mp h2
        simp only [List.length_cons] at this
        omega
      · intro h
        have h2 : t ∈ m :: rest ∨ t ∈ taken := (hpart t).mpr (by
          simp only [List.length_cons]
          omega)
        rcases h2 with h2 | h2
        · rcases List.mem_cons.mp h2 with rfl | hr
          · exact Or.inr (Or.inl rfl)
          · exact Or.inl hr
        · exact Or.inr (Or.inr h2)
    have henc : encAux taken (m :: rest) =
        (List.range m).countP (fun t => !taken.contains t) *
          Nat.factorial rest.length + encAux (m :: taken) rest := rfl
    have hrec : encAux (m :: taken) rest < Nat.factorial rest.length :=
      encAux_lt rest (m :: taken) (List.Nodup.of_cons hnd) hdisj2 hpart2
    have hdiv : encAux taken (m :: rest) / Nat.factorial rest.length =
        (List.range m).countP (fun t => !taken.contains t) := by
      rw [henc, Nat.mul_comm, Nat.mul_add_div (Nat.factorial_pos rest.length),
        Nat.div_eq_of_lt hrec, Nat.add_zero]
    have hmod : encAux taken (m :: rest) % Nat.factorial rest.length =
        encAux (m :: taken) rest := by
      rw [henc, Nat.mul_comm, Nat.mul_add_mod,
        Nat.mod_eq_of_lt hrec]
    have hcnt : (List.range m).countP (fun t => !taken.contains t) =
        cntUn taken 0 m := by
      rw [cntUn_eq_countP]
      apply List.countP_congr
      intro a _
      simp
    have hnth : nthUntaken taken
        (taken.length + (List.range m).countP (fun t => !taken.contains t) + 1) 0
        ((List.range m).countP (fun t => !taken.contains t)) = m := by
      have hxm : taken.contains (0 + m) = false := by
        have hmnotin : m ∉ taken := hdisj m (List.mem_cons_self m rest)
        simp [hmnotin]
      have hbound := cntUn_add_countP taken m 0
      have hall : taken.countP (fun t => decide (0 ≤ t)) = taken.length := by
        rw [List.countP_eq_length_filter]
        have : taken.filter (fun t => decide (0 ≤ t)) = taken := by
          apply List.filter_eq_self.mpr
          intro a _
          simp
        rw [this]
      rw [hall] at hbound
      have := nthUntaken_go taken m
        (taken.length + (List.range m).countP (fun t => !taken.contains t) + 1)
        0 ((List.range m).countP (fun t => !taken.contains t)) hxm
        (by rw [hcnt]) (by rw [hcnt] at *; omega)
      rw [Nat.zero_add] at this
      exact this
    show decAux taken (encAux taken (m :: rest)) (rest.length + 1) = m :: rest
    rw [decAux_cons, hdiv, hmod, hnth]
    exact congrArg (m :: ·) (ih (m :: taken) (List.Nodup.of_cons hnd) hdisj2 hpart2)

theorem np_roundtrip (l : List Nat) (h : l.Perm (List.range l.length)) :
    decAux [] (encAux [] l) l.length = l ∧
      encAux [] l < Nat.factorial l.length := by
  have hnd : l.Nodup := h.nodup_iff.mpr (List.nodup_range l.length)
  have hdisj : ∀ t ∈ l, t ∉ ([] : List Nat) := fun t _ htk => by cases htk
  have hpart : ∀ t, (t ∈ l ∨ t ∈ ([] : List Nat)) ↔
      t < l.length + ([] : List Nat).length := by
    intro t
    simp [h.mem_iff, List.mem_range]
  exact ⟨decAux_encAux l [] hnd hdisj hpart, encAux_lt l [] hnd hdisj hpart⟩

/-! ## Claim theorems -/

/-- Bound used by witnesses: the chain domain only emits ids below 4. -/
theorem succChain_bound : ∀ u t, t ∈ succChain u → t < 4 := by
  intro u t ht
  simp only [succChain] at ht
  split_ifs at ht <;> simp at ht <;> omega

/-- C1: BFS layering.  A state appears in the generation-`g` frontier of
the disk engine (`gens`, the GEN-g file of bfs2.c, also the serialized
semantics of bfs2p.c) exactly when it has a length-`g` walk from the
start and no shorter one, i.e. when its first-seen depth equals its
shortest-path distance; and the `prev` range of the delayed-duplicate
engines (bfsd.c, and bfsdu.c under the move symmetry that engine
assumes) after `k` iterations is exactly the set of states at distance
`k`. -/
theorem claim_C1_layering (succ : Nat → List Nat) (start : Nat) :
    (∀ g z, z ∈ gens succ start g ↔
      (PathLen succ start g z ∧ ∀ k, PathLen succ start k z → g ≤ k)) ∧
    (∀ k z, z ∈ (iterD succ start k).2 ↔ z ∈ layer succ start k) ∧
    ((∀ u v, v ∈ succ u → u ∈ succ v) →
      ∀ k z, z ∈ (iterDU succ start k).2 ↔ z ∈ layer succ start k) := by
  refine ⟨fun g z => ?_, fun k z => (iterD_layers k).1 z,
    fun hsym k z => (iterDU_layers hsym k).1 z⟩
  rw [mem_gens_iff]
  exact mem_layer_iff

/-- C2: solution reconstruction.  For the disk engines, the backward
scan over the GEN files from a win state at depth `g + 1` yields `g + 1`
predecessor states ending at the start, every consecutive pair connected
by an emitted move; for the in-memory engine (bfs.c), when the run from
the initial state exits with a win at `c`, the parent chain printed by
`showsolution` has `j + 2` states (i.e. exactly `j + 1` moves, the depth
at which `won` first fired), starts at the start state, ends at `c`, and
every consecutive pair is connected by an emitted move. -/
theorem claim_C2_reconstruction (succ : Nat → List Nat) (start n : Nat)
    (won : Nat → Bool) (hsucc : ∀ s, s < n → ∀ t ∈ succ s, t < n)
    (hstart : start < n) :
    (∀ g w, w ∈ layer succ start (g + 1) →
      (backScan succ start g w).length = g + 1 ∧
      List.Chain' (fun a b => a ∈ succ b) (w :: backScan succ start g w) ∧
      (w :: backScan succ start g w).getLast? = some start) ∧
    (∀ f c st2,
      mrun succ n won f (memInit n start) = some (.error (.won c st2)) →
      ∃ j, won c = true ∧ c ∈ layer succ start (j + 1) ∧
        (parChain st2.par (j + 1) c).length = j + 2 ∧
        (parChain st2.par (j + 1) c).head? = some start ∧
        (parChain st2.par (j + 1) c).getLast? = some c ∧
        List.Chain' (fun a b => b ∈ succ a) (parChain st2.par (j + 1) c)) := by
  constructor
  · intro g w hw
    exact backScan_spec g w hw
  · intro f c st2 heq
    have h := @mrunRich succ start n won hsucc f (memInit n start)
      (memInit_invB hstart) (@memInit_invL succ start n won hstart)
    rw [heq] at h
    have h2 : WonProp succ start won c st2 := h
    obtain ⟨j, hw1, hw2, hw3, _⟩ := h2
    obtain ⟨hl, hh, hgl, hch⟩ := parChain_of_climbs hw3 (j + 1) (Nat.le_refl _)
    exact ⟨j, hw1, hw2, hl, hh, hgl, hch⟩

/-- C2 witness: the chain domain `0 → 1 → 2 → 3` on 4 states. -/
theorem claim_C2_witness :
    (∀ s, s < 4 → ∀ t ∈ succChain s, t < 4) ∧ 0 < 4 ∧
    ((∀ g w, w ∈ layer succChain 0 (g + 1) →
      (backScan succChain 0 g w).length = g + 1 ∧
      List.Chain' (fun a b => a ∈ succChain b) (w :: backScan succChain 0 g w) ∧
      (w :: backScan succChain 0 g w).getLast? = some 0) ∧
    (∀ f c st2,
      mrun succChain 4 wonChain f (memInit 4 0) = some (.error (.won c st2)) →
      ∃ j, wonChain c = true ∧ c ∈ layer succChain 0 (j + 1) ∧
        (parChain st2.par (j + 1) c).length = j + 2 ∧
        (parChain st2.par (j + 1) c).head? = some 0 ∧
        (parChain st2.par (j + 1) c).getLast? = some c ∧
        List.Chain' (fun a b => b ∈ succChain a) (parChain st2.par (j + 1) c))) :=
  ⟨by decide, by decide,
    claim_C2_reconstruction succChain 0 4 wonChain (by decide) (by decide)⟩

/-- C3: the provable part of termination and completeness — the bfsdu.c
engine is excluded, where the missing empty-batch guard in
`sortandcompress` (contrast bfsd.c's `if(curn<1) return 0;`) breaks the
empty-`prev` exit signal when an iteration emits no children at all.
For the other engines: when every emitted id is below `N` and the start
is below `N`, some generation at index at most `N` comes out empty (so
the disk loop's `if(!len) break` fires in bounded time); the directed
delayed engine's `prev` range likewise empties within `N` iterations;
when a generation is empty, every reachable state was processed (read
back and expanded) in an earlier generation; and the in-memory loop
finishes within `N + 1` dequeues (the fuel bound `N < f` suffices). -/
theorem claim_C3_termination (succ : Nat → List Nat) (start N : Nat)
    (won : Nat → Bool) (hsucc : ∀ u t, t ∈ succ u → t < N)
    (hstart : start < N) :
    (∃ g, g ≤ N ∧ gens succ start g = []) ∧
    (∃ k, k ≤ N ∧ (iterD succ start k).2 = []) ∧
    (∀ g0, gens succ start g0 = [] →
      ∀ s, Reachable succ start s → ∃ j, j < g0 ∧ s ∈ gens succ start j) ∧
    (∀ f, N < f → mrun succ N won f (memInit N start) ≠ none) := by
  obtain ⟨g, hg, hgen⟩ := exists_empty_gen hsucc hstart
  refine ⟨⟨g, hg, hgen⟩, ⟨g, hg, ?_⟩, fun g0 h => noSolution_complete h,
    fun f hf => ?_⟩
  · have hlay : layer succ start g = ∅ := layer_empty_of_gens_empty hgen
    apply List.eq_nil_iff_forall_not_mem.mpr
    intro z hz
    have hz2 : z ∈ layer succ start g := ((iterD_layers g).1 z).mp hz
    rw [hlay] at hz2
    exact Finset.not_mem_empty z hz2
  · apply mrun_terminates (fun s _ t ht => hsucc s t ht) f (memInit N start)
      (memInit_invB hstart)
    have hd : (memInit N start).d = 0 := rfl
    omega

/-- C3 witness: the chain domain `0 → 1 → 2 → 3` on 4 states. -/
theorem claim_C3_witness :
    (∀ u t, t ∈ succChain u → t < 4) ∧ 0 < 4 ∧
    ((∃ g, g ≤ 4 ∧ gens succChain 0 g = []) ∧
    (∃ k, k ≤ 4 ∧ (iterD succChain 0 k).2 = []) ∧
    (∀ g0, gens succChain 0 g0 = [] →
      ∀ s, Reachable succChain 0 s → ∃ j, j < g0 ∧ s ∈ gens succChain 0 j) ∧
    (∀ f, 4 < f → mrun succChain 4 wonChain f (memInit 4 0) ≠ none)) :=
  ⟨succChain_bound, by decide,
    claim_C3_termination succChain 0 4 wonChain succChain_bound (by decide)⟩

/-- C4 counterexample: the 2x2 puzzle `1 2 / 3 _` already satisfies the
goal test, yet `domain_init` (npuzzle.c line 144) then computes
`info.goal = 0` and `won()` returns 0 — the start-at-goal input is
exactly the input on which `won` never fires, so no zero-step solution
is emitted. -/
theorem claim_C4_cex :
    npIsGoal 2 2 m22 = true ∧ npGoalFlag 2 2 m22 = false ∧
      npWon (npGoalFlag 2 2 m22) 2 2 m22 = false := by decide

/-- C4 (amended): for an n-puzzle input that already equals the goal
configuration, `domain_init` clears the goal flag (enumerate-the-tree
mode), `won()` is identically false, and the in-memory engine can never
report a win on such a domain — the solver does not recognize the
initial state as a goal and emits no solution at all, rather than a
zero-step one. -/
theorem claim_C4_no_goal_mode (x y : Nat) (m : List Nat)
    (hgoal : npIsGoal x y m = true) :
    npGoalFlag x y m = false ∧
    (∀ v, npWonId (npGoalFlag x y m) x y v = false) ∧
    (∀ n f st c2 st2,
      mrun (succNp x y) n (npWonId (npGoalFlag x y m) x y) f st ≠
        some (.error (.won c2 st2))) := by
  have hflag : npGoalFlag x y m = false := by
    rw [npGoalFlag, hgoal]
    rfl
  have hwon : ∀ v, npWonId (npGoalFlag x y m) x y v = false := by
    intro v
    rw [npWonId, hflag, npWon]
    simp
  exact ⟨hflag, hwon, fun n f st c2 st2 => mrun_no_won hwon f st⟩

/-- C4 witness: the goal-configured 2x2 instance. -/
theorem claim_C4_witness :
    npIsGoal 2 2 m22 = true ∧
    (npGoalFlag 2 2 m22 = false ∧
    (∀ v, npWonId (npGoalFlag 2 2 m22) 2 2 v = false) ∧
    (∀ n f st c2 st2,
      mrun (succNp 2 2) n (npWonId (npGoalFlag 2 2 m22) 2 2) f st ≠
        some (.error (.won c2 st2)))) :=
  ⟨by decide, claim_C4_no_goal_mode 2 2 m22 (by decide)⟩

/-- C5 (code defect, function level): on an empty raw batch the
undirected delayed engine's `sortandcompress` (bfsdu.c) reports one
position, not zero — its compaction loop starts at `j = 1` and bfsdu.c
lacks the `if(curn<1) return 0;` guard present in bfsd.c — so a
frontier whose states emit no children at all would be turned into a
phantom position instead of an empty `cur`.  (With the n-puzzle domain
every state emits at least two children, so on that pairing the batch
is never empty and the frontier empties one step later through
`removeduplicates2` returning zero, which does exit the loop; the
guard defect is latent there.  Separately, on loop exit bfsdu.c and
bfs2.c print no terminal no-solution line at all, unlike bfsd.c and
bfs2p.c.) -/
theorem claim_C5_empty_frontier :
    scCountDu [] = 1 ∧ scCountD [] = 0 ∧ sortUnique ([] : List Nat) = [] := by
  refine ⟨rfl, rfl, ?_⟩
  show adjUnique [] = []
  rw [adjUnique]

/-- C6: delayed-duplicate invariant.  After every iteration of bfsd.c's
and bfsdu.c's main loop, the `prevprev` range is sorted ascending, the
`prev` range is sorted ascending, the two share no state, and the byte
comparator `comppos` used for the sort agrees with numeric order on
encoded ids. -/
theorem claim_C6_delayed_invariant (succ : Nat → List Nat) (start : Nat) :
    (∀ k, DelayedInv (iterD succ start k).1 (iterD succ start k).2) ∧
    (∀ k, DelayedInv (iterDU succ start k).1 (iterDU succ start k).2) ∧
    (∀ s v w, v < 256 ^ s → w < 256 ^ s →
      comppos (getptr s v) (getptr s w) = compare v w) :=
  ⟨iterD_inv succ start, iterDU_inv succ start,
    fun s v w hv hw => comppos_getptr s v w hv hw⟩

/-- C7: the QueueExhausted branch of bfs.c's `add_child` is unreachable
when the domain only emits ids below `N`: starting from the initialized
state, no fuel makes the run return the queue-wrap error. -/
theorem claim_C7_no_queue_exhaustion (succ : Nat → List Nat)
    (n start : Nat) (won : Nat → Bool)
    (hsucc : ∀ s, s < n → ∀ t ∈ succ s, t < n) (hstart : start < n) :
    ∀ f, mrun succ n won f (memInit n start) ≠ some (.error .qex) :=
  fun f => mrun_no_qex hsucc f (memInit n start) (memInit_invB hstart)

/-- C7 witness: the chain domain `0 → 1 → 2 → 3` on 4 states. -/
theorem claim_C7_witness :
    (∀ s, s < 4 → ∀ t ∈ succChain s, t < 4) ∧ 0 < 4 ∧
    (∀ f, mrun succChain 4 wonChain f (memInit 4 0) ≠ some (.error .qex)) :=
  ⟨by decide, by decide,
    claim_C7_no_queue_exhaustion succChain 4 0 wonChain (by decide) (by decide)⟩

/-- C8: codec round-trips.  Reading back an `s`-byte little-endian
buffer written from `v < 256^s` restores `v` (and the engine's byte
width always satisfies `v < 256^(byteLen v)`); and the npuzzle
factorial-number-system codec is a bijection on permutations: decoding
the encoding of any permutation restores it, and the rank is below
`(x*y)!`. -/
theorem claim_C8_codec_roundtrip :
    (∀ s v, v < 256 ^ s → getval (getptr s v) = v) ∧
    (∀ v, v < 256 ^ byteLen v) ∧
    (∀ l : List Nat, l.Perm (List.range l.length) →
      decAux [] (encAux [] l) l.length = l ∧
      encAux [] l < Nat.factorial l.length) :=
  ⟨fun _ _ h => getval_getptr_of_lt h, lt_pow_byteLen, np_roundtrip⟩

/-- C9 counterexample: encoding 256 into a single byte silently
truncates — the buffer holds the byte 0 and reads back as 0, with no
diagnostic path in the code. -/
theorem claim_C9_cex : getptr 1 256 = [0] ∧ getval (getptr 1 256) = 0 := by
  decide

/-- C9 (amended): the codec has no overflow detection.  `getptr` keeps
only the low `s` bytes, so reading the buffer back yields `v mod 256^s`
for every `v` — a value that does not fit is silently truncated, and
`getval` returns whatever the bytes hold with no comparison against `N`;
neither direction raises InternalError. -/
theorem claim_C9_truncation :
    (∀ s v, getval (getptr s v) = v % 256 ^ s) ∧
    (∀ s v, (getptr s v).length = s) :=
  ⟨getval_getptr, getptr_length⟩

/-- C10: admission uniqueness in the parallel engine.  Modelling the
per-chunk lock by serializing `add_child` invocations in
lock-acquisition order, a state `s` appears in the admitted list exactly
once when some invocation attempts it and it was not already visited —
and zero times otherwise — and the final visited set is the initial one
plus all attempted ids. -/
theorem claim_C10_admission_unique (v : Finset Nat) (l : List Nat)
    (s : Nat) :
    (runAdmits v l).2.count s = (if s ∈ l ∧ s ∉ v then 1 else 0) ∧
    (runAdmits v l).1 = v ∪ l.toFinset :=
  ⟨runAdmits_count s l v, runAdmits_visited v l⟩

end Solver
